import Mathlib

/-!
Verification of the schema-resolution core of `followthemoney`
(`src/followthemoney/schema.py`).

The embedding is a shallow state-passing model of the `Schema` class.
Python objects are identified by their schema name (the source hashes and
compares schemas by name, lines 233-237), so the mutable registry becomes a
map from names to per-schema states, and the Python sets of schema objects
(`schemata`, `descendants`, `extends`) become insertion-ordered duplicate-free
lists of names.  The unbounded recursion of `Schema.generate` (the source has
no cycle detection) is modelled with an explicit fuel parameter; running out
of fuel is reported as the distinguished `Err.fuelExhausted` outcome.

Collaborators that are part of this repository but not under `src/`
(`Model.get`, `Property.generate`, `Property.validate`, `gettext`) are
modelled from the spec and marked as such on their definitions.
-/

namespace FTM

/-- Structured payload of a data-validation error: the mapping of
per-property error messages nested under the `properties` key. -/
structure ValidationErrors where
  properties : List (String × String)
deriving DecidableEq, Repr

/-- Errors of the engine: `invalidModel` is the fatal model-definition error
kind (`InvalidModel`), `invalidData` the recoverable data-validation kind
(`InvalidData`, carrying the per-property errors nested under a `properties`
key), and `fuelExhausted` marks the unbounded recursion of the source on
cyclic input. -/
inductive Err where
  | invalidModel (msg : String)
  | invalidData (msg : String) (errors : ValidationErrors)
  | fuelExhausted
deriving DecidableEq, Repr

/-- Raw reverse-link fragment (the `reverse: {...}` dict of a raw property
configuration, also the `data` argument of `Schema._add_reverse`). -/
structure RevData where
  name : Option String
  label : Option String
  hidden : Option Bool
deriving DecidableEq, Repr

/-- Raw property configuration, keys as recognized by the source and by the
Property collaborator (spec section 6). -/
structure PropData where
  type : Option String
  label : Option String
  hidden : Option Bool
  stub : Option Bool
  range : Option String
  reverse : Option RevData
deriving DecidableEq, Repr

/-- A `Property` object: the owning schema (by name, the source identifies
schemas by name), the property name, and its raw configuration.  Properties
are compared structurally; in the source a shared reference is shared
unchanged, which structural equality reflects. -/
structure Property where
  schema : String
  name : String
  data : PropData
deriving DecidableEq, Repr

/-- Modelled from the spec: a Property's `hidden` flag as exposed to
`Schema._add_reverse` (property.py is not under src/; spec section 6 lists
`hidden` among the Property's read-accessible attributes, a boolean defaulted
to false). -/
def Property.hidden (p : Property) : Bool := p.data.hidden.getD false

/-- Raw edge block of a schema configuration. -/
structure EdgeData where
  source : Option String
  target : Option String
  caption : List String
  label : Option String
  directed : Option Bool
deriving DecidableEq, Repr

/-- Raw schema configuration (the `data` dict of `Schema.__init__`); the
`extends` key is held in `exts` (`extends` is a reserved word in Lean). -/
structure SchemaData where
  label : Option String
  plural : Option String
  description : Option String
  abstract : Option Bool
  generated : Option Bool
  matchable : Option Bool
  featured : List String
  required : List String
  caption : List String
  edge : Option EdgeData
  properties : List (String × PropData)
  exts : List String
deriving DecidableEq, Repr

/-- The state of one `Schema` object (`Schema.__init__`, lines 18-68).
The derived sets `exts` (direct parents), `schemata`, `names` and
`descendants` are duplicate-free insertion-ordered lists of schema names
(the source's sets deduplicate by name). -/
structure SchemaState where
  name : String
  data : SchemaData
  label : String
  plural : String
  description : Option String
  abstract : Bool
  generated : Bool
  matchable : Bool
  featured : List String
  required : List String
  caption : List String
  edgeSource : Option String
  edgeTarget : Option String
  edgeCaption : List String
  edgeLabel : String
  edgeDirected : Bool
  exts : List String
  schemata : List String
  names : List String
  descendants : List String
  properties : List (String × Property)
deriving DecidableEq, Repr

/-- `Schema.__init__` (lines 18-68): construct a schema state from its name
and raw configuration.  `abstract` and `generated` default to false,
`matchable` defaults to true; `schemata` and `names` start as the singleton
of this schema; local properties are constructed owned by this schema. -/
def schemaInit (name : String) (data : SchemaData) : SchemaState :=
  let lbl := data.label.getD name
  { name := name
    data := data
    label := lbl
    plural := data.plural.getD lbl
    description := data.description
    abstract := data.abstract.getD false
    generated := data.generated.getD false
    matchable := data.matchable.getD true
    featured := data.featured
    required := data.required
    caption := data.caption
    edgeSource := data.edge.bind (fun e => e.source)
    edgeTarget := data.edge.bind (fun e => e.target)
    edgeCaption := (data.edge.map (fun e => e.caption)).getD []
    edgeLabel := (data.edge.bind (fun e => e.label)).getD lbl
    edgeDirected := (data.edge.bind (fun e => e.directed)).getD true
    exts := []
    schemata := [name]
    names := [name]
    descendants := []
    properties := data.properties.map (fun np => (np.1, ⟨name, np.1, np.2⟩)) }

/-- Python truthiness of an optional string (`None` and `""` are falsy). -/
def truthyOpt : Option String → Bool
  | none => false
  | some s => !s.isEmpty

/-- `Schema.get` (lines 177-178): look up a property by name. -/
def SchemaState.get (sch : SchemaState) (n : String) : Option Property :=
  (sch.properties.find? (fun np => np.1 == n)).map (fun np => np.2)

/-- The `self.edge` flag (line 57): both edge endpoints declared (truthy). -/
def SchemaState.edge (sch : SchemaState) : Bool :=
  truthyOpt sch.edgeSource && truthyOpt sch.edgeTarget

/-- `Schema.source_prop` (lines 144-146). -/
def SchemaState.source_prop (sch : SchemaState) : Option Property :=
  sch.edgeSource.bind (fun n => sch.get n)

/-- `Schema.target_prop` (lines 148-150). -/
def SchemaState.target_prop (sch : SchemaState) : Option Property :=
  sch.edgeTarget.bind (fun n => sch.get n)

/-- The mutable registry of schema objects, keyed by name.  Modelled from the
spec: the Model collaborator (model.py is not under src/) is a flat registry
of Schema by name; `st n` is `Model.get(n)` returning the schema or absent. -/
abbrev ModelState := String → Option SchemaState

/-- Replace the state of schema `n` (mutation of the shared object). -/
def setSchema (st : ModelState) (n : String) (sch : SchemaState) : ModelState :=
  fun m => if m == n then some sch else st m

/-- The property binding of name `n` on schema `T` in state `st`. -/
def lookupProp (st : ModelState) (T n : String) : Option Property :=
  (st T).bind (fun sch => sch.get n)

/-- Python `set.add` on a name list: append if absent. -/
def insertName (l : List String) (n : String) : List String :=
  if l.contains n then l else l ++ [n]

/-- Python dict assignment `d[n] = p`: replace the binding in place if the
key is present (dict keys are unique), otherwise append. -/
def setProp : List (String × Property) → String → Property → List (String × Property)
  | [], n, p => [(n, p)]
  | q :: rest, n, p => if q.1 == n then (n, p) :: rest else q :: setProp rest n p

/-- The property-merge loop of `Schema.generate` (lines 75-77): copy every
parent binding whose name is absent from this schema's properties. -/
def mergeProps (parentProps ps : List (String × Property)) : List (String × Property) :=
  parentProps.foldl
    (fun ps np => if ps.any (fun q => q.1 == np.1) then ps else ps ++ [np]) ps

/-- One step of the ancestor loop of `Schema.generate` (lines 80-83): add
the ancestor to this schema's `schemata` and `names` and register this
schema as the ancestor's descendant. -/
def ancStep (self : String) (st : ModelState) (anc : String) : ModelState :=
  let st := match st self with
    | some s => setSchema st self
        { s with schemata := insertName s.schemata anc,
                 names := insertName s.names anc }
    | none => st
  match st anc with
  | some a => setSchema st anc { a with descendants := insertName a.descendants self }
  | none => st

/-- One parent step of `Schema.generate` after the parent has been resolved
(lines 75-83): copy the parent's properties absent by name into this schema,
add the parent to `exts`, union the parent's `schemata` into this schema's
`schemata`/`names`, and register this schema as a descendant of every
ancestor so picked up. -/
def mergeParent (st : ModelState) (self pn : String) : ModelState :=
  match st pn, st self with
  | some parent, some sch =>
    let st := setSchema st self
      { sch with properties := mergeProps parent.properties sch.properties,
                 exts := insertName sch.exts pn }
    parent.schemata.foldl (ancStep self) st
  | _, _ => st

/-- The consistency checks at the end of `Schema.generate` (lines 88-107):
every `featured`/`caption`/`required` name must resolve to a property, and a
declared edge needs resolvable source and target properties; each violation
is a fatal `InvalidModel` error. -/
def checks (st : ModelState) (self : String) : Except Err ModelState :=
  match st self with
  | none => .error (.invalidModel ("Unknown schema: " ++ self))
  | some sch =>
    match sch.featured.find? (fun n => (sch.get n).isNone) with
    | some n => .error (.invalidModel ("Missing featured property: " ++ n))
    | none =>
      match sch.caption.find? (fun n => (sch.get n).isNone) with
      | some n => .error (.invalidModel ("Missing caption property: " ++ n))
      | none =>
        match sch.required.find? (fun n => (sch.get n).isNone) with
        | some n => .error (.invalidModel ("Missing required property: " ++ n))
        | none =>
          if sch.edge then
            if sch.source_prop.isNone then
              .error (.invalidModel ("Missing edge source: " ++ sch.edgeSource.getD ""))
            else if sch.target_prop.isNone then
              .error (.invalidModel ("Missing edge target: " ++ sch.edgeTarget.getD ""))
            else .ok st
          else .ok st

mutual

/-- `Schema.generate` (lines 70-107): resolve each declared parent in order
(recursively resolving it first, then merging), finalize a snapshot of the
property values, and run the consistency checks.  The fuel argument models
the source's unbounded recursion; all loops advance it so the recursion is
structural. -/
def generate : Nat → ModelState → String → Except Err ModelState
  | 0, _, _ => .error .fuelExhausted
  | f+1, st, self =>
    match st self with
    | none => .error (.invalidModel ("Unknown schema: " ++ self))
    | some sch =>
      match genParents f st self sch.data.exts with
      | .error e => .error e
      | .ok st1 =>
        match st1 self with
        | none => .error (.invalidModel ("Unknown schema: " ++ self))
        | some sch1 =>
          match genProps f st1 (sch1.properties.map (fun np => np.2)) with
          | .error e => .error e
          | .ok st2 => checks st2 self

/-- The parent loop of `Schema.generate` (lines 71-83): look each parent up
in the Model (modelled from the spec: an unresolvable name during `extends`
processing is a fatal model-definition error), resolve it recursively, then
merge it into this schema. -/
def genParents : Nat → ModelState → String → List String → Except Err ModelState
  | 0, _, _, _ => .error .fuelExhausted
  | _+1, st, _, [] => .ok st
  | f+1, st, self, pn :: rest =>
    match st pn with
    | none => .error (.invalidModel ("Invalid schema: " ++ pn))
    | some _ =>
      match generate f st pn with
      | .error e => .error e
      | .ok st1 => genParents f (mergeParent st1 self pn) self rest

/-- The property-finalization loop of `Schema.generate` (lines 85-86),
over a snapshot of the property values. -/
def genProps : Nat → ModelState → List Property → Except Err ModelState
  | 0, _, _ => .error .fuelExhausted
  | _+1, st, [] => .ok st
  | f+1, st, p :: rest =>
    match propGenerate f st p with
    | .error e => .error e
    | .ok st1 => genProps f st1 rest

/-- Modelled from the spec: `Property.generate` (property.py is not under
src/; spec sections 4.2 and 6): binding the value kind is external; for an
entity-valued property whose declared range resolves to a schema and which
carries reverse-link metadata, synthesize the back-reference on the range
schema via `Schema._add_reverse`. -/
def propGenerate : Nat → ModelState → Property → Except Err ModelState
  | 0, _, _ => .error .fuelExhausted
  | f+1, st, p =>
    if p.data.type == some "entity" then
      match p.data.range with
      | none => .ok st
      | some rn =>
        match st rn with
        | none => .ok st
        | some _ =>
          match p.data.reverse with
          | none => .ok st
          | some rd =>
            match add_reverse f st rn rd p with
            | .error e => .error e
            | .ok (st1, _) => .ok st1
    else .ok st

/-- `Schema._add_reverse` (lines 109-126): given a reverse fragment carrying
a name, fail with `InvalidModel` if the name is missing; return an existing
property of that name unchanged; otherwise synthesize an entity-valued stub
property pointing back at the originating property, finalize it, store it
and return it. -/
def add_reverse : Nat → ModelState → String → RevData → Property →
    Except Err (ModelState × Property)
  | 0, _, _, _, _ => .error .fuelExhausted
  | f+1, st, self, rdata, other =>
    match rdata.name with
    | none => .error (.invalidModel ("Unnamed reverse: " ++ other.name))
    | some n =>
      match st self with
      | none => .error (.invalidModel ("Unknown schema: " ++ self))
      | some sch =>
        match sch.get n with
        | some prop => .ok (st, prop)
        | none =>
          let pd : PropData :=
            { type := some "entity"
              label := rdata.label
              hidden := some (rdata.hidden.getD other.hidden)
              stub := some true
              range := some other.schema
              reverse := some { name := some other.name, label := none, hidden := none } }
          let prop : Property := ⟨self, n, pd⟩
          match propGenerate f st prop with
          | .error e => .error e
          | .ok st1 =>
            match st1 self with
            | none => .error (.invalidModel ("Unknown schema: " ++ self))
            | some sch1 =>
              .ok (setSchema st1 self
                     { sch1 with properties := setProp sch1.properties n prop }, prop)

end

/-- Modelled from the spec: the locale text-lookup collaborator
(`followthemoney.util.gettext`, not under src/), the identity in the
reference locale. -/
def gettext (s : String) : String := s

/-- Instance data handed to `Schema.validate`: the optional `properties`
sub-mapping of property name to value list (`validate({})` is `⟨[]⟩`). -/
structure InstanceData where
  properties : List (String × List String)
deriving DecidableEq, Repr

/-- The loop body of `Schema.validate` (lines 186-193), as the error-map
contribution of one property.  `kindValidate` is the injected kind-level
per-value validation of the Property collaborator (modelled from the spec,
section 6: `validate(values) -> error|none`, external to this core).  For
one property: coerce the supplied values to a list (absent key: empty),
delegate to the kind-level validation, record a "Required" error instead
when there is no kind-level error, the value list is empty and the property
is required; the contribution is the singleton error entry or nothing. -/
def validateEntry (kindValidate : Property → List String → Option String)
    (props : List (String × List String)) (required : List String)
    (np : String × Property) : List (String × String) :=
  let values := ((props.find? (fun q => q.1 == np.1)).map (fun q => q.2)).getD []
  let err0 := kindValidate np.2 values
  let err1 := if err0.isNone && values.isEmpty && required.contains np.2.name
              then some (gettext "Required") else err0
  match err1 with
  | some e => [(np.1, e)]
  | none => []

/-- `Schema.validate` (lines 180-196): iterate the schema's merged
properties (unknown input keys are silently ignored), collect the
per-property errors via `validateEntry`, and fail with `InvalidData`
carrying them under a `properties` key when any exist. -/
def validate (kindValidate : Property → List String → Option String)
    (sch : SchemaState) (data : InstanceData) : Except Err Unit :=
  let errors := sch.properties.foldl
    (fun errs np => errs ++ validateEntry kindValidate data.properties sch.required np) []
  if errors.isEmpty then .ok ()
  else .error (.invalidData (gettext "Entity validation failed") ⟨errors⟩)

/-- Insertion step for sorting name lists. -/
def insertSorted (n : String) : List String → List String
  | [] => [n]
  | m :: rest => if n ≤ m then n :: m :: rest else m :: insertSorted n rest

/-- `sorted(...)` on a list of names. -/
def sortStrings (l : List String) : List String := l.foldr insertSorted []

/-- The serialized edge block of `Schema.to_dict` (lines 206-213). -/
structure EdgeDict where
  source : String
  target : String
  caption : List String
  label : String
  directed : Bool
deriving DecidableEq, Repr

/-- The sparse snapshot produced by `Schema.to_dict`; an optional field is
`none` exactly when the source omits the key.  Locally-owned properties are
kept as objects (their own serialization is the Property collaborator's). -/
structure SchemaDict where
  label : String
  plural : String
  schemata : List String
  exts : List String
  properties : List (String × Property)
  edge : Option EdgeDict
  featured : Option (List String)
  required : Option (List String)
  caption : Option (List String)
  description : Option String
  abstract : Option Bool
  generated : Option Bool
  matchable : Option Bool
deriving DecidableEq, Repr

/-- `Schema.to_dict` (lines 198-231). -/
def to_dict (sch : SchemaState) : SchemaDict :=
  { label := gettext sch.label
    plural := gettext sch.plural
    schemata := sortStrings sch.names
    exts := sortStrings sch.exts
    properties := sch.properties.filter (fun np => np.2.schema == sch.name)
    edge :=
      if truthyOpt sch.edgeSource && truthyOpt sch.edgeTarget then
        some { source := sch.edgeSource.getD "", target := sch.edgeTarget.getD ""
               caption := sch.edgeCaption, label := gettext sch.edgeLabel
               directed := sch.edgeDirected }
      else none
    featured := if sch.featured.isEmpty then none else some sch.featured
    required := if sch.required.isEmpty then none else some sch.required
    caption := if sch.caption.isEmpty then none else some sch.caption
    description :=
      match sch.description with
      | some d => if d.isEmpty then none else some (gettext d)
      | none => none
    abstract := if sch.abstract then some true else none
    generated := if sch.generated then some true else none
    matchable := if sch.matchable then some true else none }

/-- The `matchable` flag of the schema named `n` in state `st`. -/
def matchableFlag (st : ModelState) (n : String) : Bool :=
  match st n with
  | some s => s.matchable
  | none => false

/-- `Schema.matchable_schemata` (lines 159-172): empty if this schema is not
matchable, otherwise the union of its ancestor closure and descendants
filtered to the individually matchable ones. -/
def matchable_schemata (st : ModelState) (sch : SchemaState) : List String :=
  if !sch.matchable then []
  else (sch.descendants.foldl insertName sch.schemata).filter (matchableFlag st)

/-- Build the registry from raw configurations (Model construction,
modelled from the spec: the Model constructs every Schema from raw
configuration before triggering resolution). -/
def mkState (defs : List (String × SchemaData)) : ModelState :=
  fun n => (defs.find? (fun d => d.1 == n)).map (fun d => schemaInit d.1 d.2)

/-- An empty raw schema configuration, for building concrete models. -/
def emptySchemaData : SchemaData :=
  { label := none, plural := none, description := none, abstract := none
    generated := none, matchable := none, featured := [], required := []
    caption := [], edge := none, properties := [], exts := [] }

/-- An empty raw property configuration. -/
def emptyPropData : PropData :=
  { type := none, label := none, hidden := none, stub := none, range := none
    reverse := none }

/-! ### Basic lemmas about the state helpers -/

theorem setSchema_same (st : ModelState) (n : String) (sch : SchemaState) :
    setSchema st n sch n = some sch := by
  simp [setSchema]

theorem setSchema_other (st : ModelState) (n : String) (sch : SchemaState)
    (m : String) (h : m ≠ n) : setSchema st n sch m = st m := by
  simp [setSchema, h]

theorem setSchema_id (st : ModelState) (n : String) (sch : SchemaState)
    (h : st n = some sch) : setSchema st n sch = st := by
  funext m
  by_cases hm : m = n
  · subst hm; simp [setSchema, h]
  · simp [setSchema, hm]

theorem get_eq_findProp (sch : SchemaState) (n : String) :
    sch.get n = (sch.properties.find? (fun np => np.1 == n)).map (fun np => np.2) := rfl

theorem find?_setProp_same (ps : List (String × Property)) (n : String) (p : Property) :
    (setProp ps n p).find? (fun q => q.1 == n) = some (n, p) := by
  induction ps with
  | nil => simp [setProp, List.find?]
  | cons hd tl ih =>
    by_cases hhd : hd.1 = n
    · simp [setProp, hhd, List.find?]
    · have h1 : (hd.1 == n) = false := by simp [hhd]
      simp [setProp, h1, List.find?, ih]

theorem find?_setProp_other (ps : List (String × Property)) (n : String) (p : Property)
    (m : String) (h : m ≠ n) :
    (setProp ps n p).find? (fun q => q.1 == m) = ps.find? (fun q => q.1 == m) := by
  induction ps with
  | nil =>
    have h3 : ((n : String) == m) = false := by
      simp only [beq_eq_false_iff_ne, ne_eq]
      exact fun hc => absurd hc.symm h
    simp [setProp, List.find?, h3]
  | cons hd tl ih =>
    by_cases hhd : hd.1 = n
    · have h1 : (hd.1 == n) = true := by simp [hhd]
      have h2 : (hd.1 == m) = false := by
        simp only [beq_eq_false_iff_ne, ne_eq, hhd]
        exact fun hc => absurd hc.symm h
      have h3 : ((n : String) == m) = false := by
        simp only [beq_eq_false_iff_ne, ne_eq]
        exact fun hc => absurd hc.symm h
      simp [setProp, h1, List.find?, h2, h3]
    · have h1 : (hd.1 == n) = false := by simp [hhd]
      by_cases hm : hd.1 = m
      · have h2 : (hd.1 == m) = true := by simp [hm]
        simp only [setProp, h1, Bool.false_eq_true, if_false]
        simp [List.find?, h2]
      · have h2 : (hd.1 == m) = false := by simp [hm]
        simp only [setProp, h1, Bool.false_eq_true, if_false]
        simp [List.find?, h2, ih]

theorem mem_insertName (l : List String) (n a : String) :
    a ∈ insertName l n ↔ a ∈ l ∨ a = n := by
  unfold insertName
  by_cases h : n ∈ l
  · simp only [h, List.elem_eq_true_of_mem, if_true]
    constructor
    · exact Or.inl
    · rintro (ha | rfl)
      · exact ha
      · exact h
  · simp [h, List.mem_append]

theorem insertName_id (l : List String) (n : String) (h : n ∈ l) :
    insertName l n = l := by
  simp [insertName, h]

theorem subset_insertName (l : List String) (n : String) : l ⊆ insertName l n := by
  intro a ha
  exact (mem_insertName l n a).2 (Or.inl ha)

theorem lookupProp_eq_some (st : ModelState) (T n : String) (p : Property) :
    lookupProp st T n = some p ↔ ∃ sch, st T = some sch ∧ sch.get n = some p := by
  unfold lookupProp
  exact Option.bind_eq_some

/-! ### Reverse-link synthesis (`Schema._add_reverse`) -/

/-- If the target schema already has a property of the requested name,
`_add_reverse` returns it unchanged and leaves the state untouched
(lines 114-115, 126). -/
theorem add_reverse_existing (f : Nat) (st : ModelState) (T : String) (rdata : RevData)
    (other : Property) (n : String) (p : Property)
    (hn : rdata.name = some n) (hp : lookupProp st T n = some p) :
    add_reverse (f+1) st T rdata other = .ok (st, p) := by
  obtain ⟨sch, hT, hg⟩ := (lookupProp_eq_some st T n p).1 hp
  simp [add_reverse, hn, hT, hg]

/-- After a successful `_add_reverse`, the returned property is bound to the
requested name on the target schema. -/
theorem add_reverse_present (f : Nat) (st st1 : ModelState) (T : String) (rdata : RevData)
    (other : Property) (n : String) (p : Property)
    (hn : rdata.name = some n) (h : add_reverse f st T rdata other = .ok (st1, p)) :
    lookupProp st1 T n = some p := by
  match f with
  | 0 => simp [add_reverse] at h
  | f+1 =>
    simp only [add_reverse, hn] at h
    split at h
    · exact absurd h (by simp)
    · rename_i sch hT
      split at h
      · rename_i prop hg
        simp only [Except.ok.injEq, Prod.mk.injEq] at h
        obtain ⟨h1, h2⟩ := h
        subst h1; subst h2
        exact (lookupProp_eq_some _ _ _ _).2 ⟨sch, hT, hg⟩
      · rename_i hg
        split at h
        · simp at h
        · rename_i st2 hpg
          split at h
          · simp at h
          · rename_i sch1 hT2
            simp only [Except.ok.injEq, Prod.mk.injEq] at h
            obtain ⟨h1, h2⟩ := h
            subst h1; subst h2
            rw [lookupProp_eq_some]
            refine ⟨_, setSchema_same _ _ _, ?_⟩
            rw [get_eq_findProp]
            rw [find?_setProp_same]
            rfl

/-- C4: reverse-link synthesis is idempotent and cross-path safe: whenever a
property of the requested name already exists on the target schema,
`_add_reverse` returns it unchanged and creates nothing (the state is
untouched); consequently, after any successful `_add_reverse` for a name on
a target schema, a second `_add_reverse` for the same name on the same
target — from any other property on any other schema — returns the same
property and changes nothing, so exactly one stub is ever created. -/
theorem c4_add_reverse_idempotent :
    (∀ (f : Nat) (st : ModelState) (T : String) (rdata : RevData) (other : Property)
        (n : String) (p : Property), rdata.name = some n → lookupProp st T n = some p →
        add_reverse (f+1) st T rdata other = .ok (st, p)) ∧
    (∀ (f1 f2 : Nat) (st st1 : ModelState) (T : String) (r1 r2 : RevData)
        (o1 o2 : Property) (n : String) (p : Property),
        r1.name = some n → r2.name = some n →
        add_reverse f1 st T r1 o1 = .ok (st1, p) →
        add_reverse (f2+1) st1 T r2 o2 = .ok (st1, p)) := by
  constructor
  · exact add_reverse_existing
  · intro f1 f2 st st1 T r1 r2 o1 o2 n p h1 h2 hfst
    exact add_reverse_existing f2 st1 T r2 o2 n p h2
      (add_reverse_present f1 st st1 T r1 o1 n p h1 hfst)

/-- Concrete model for the C4 witness: a schema `T` carrying a property
`r`, and an originating property `q` on schema `S`. -/
def c4St : ModelState :=
  mkState [("T", { emptySchemaData with properties := [("r", emptyPropData)] })]

/-- The property `r` of schema `T` in `c4St`. -/
def c4P : Property := ⟨"T", "r", emptyPropData⟩

/-- A reverse fragment requesting the name `r`. -/
def c4Rd : RevData := { name := some "r", label := none, hidden := none }

/-- An originating property for the C4 witness. -/
def c4Other : Property := ⟨"S", "q", emptyPropData⟩

/-- Witness for C4 at a concrete model: both conjuncts applied to `c4St`. -/
theorem c4_add_reverse_idempotent_witness :
    add_reverse 1 c4St "T" c4Rd c4Other = .ok (c4St, c4P) ∧
    add_reverse 5 c4St "T" c4Rd c4Other = .ok (c4St, c4P) := by
  constructor
  · exact c4_add_reverse_idempotent.1 0 c4St "T" c4Rd c4Other "r" c4P (by rfl) (by decide)
  · exact c4_add_reverse_idempotent.2 1 4 c4St c4St "T" c4Rd c4Rd c4Other c4Other "r" c4P
      (by rfl) (by rfl)
      (c4_add_reverse_idempotent.1 0 c4St "T" c4Rd c4Other "r" c4P (by rfl) (by decide))

/-! ### Serialization (`Schema.to_dict`) -/

/-- C8: `to_dict` omits the `featured` key when the featured list is empty,
omits the `edge` key when either endpoint is unset (absent, or the empty
string, which the source's truthiness test also treats as unset), and
includes the edge block when both endpoints are set. -/
theorem c8_to_dict_omissions (sch : SchemaState) :
    (sch.featured = [] → (to_dict sch).featured = none) ∧
    (sch.edgeSource = none ∨ sch.edgeTarget = none → (to_dict sch).edge = none) ∧
    (∀ s t, sch.edgeSource = some s → s ≠ "" → sch.edgeTarget = some t → t ≠ "" →
      (to_dict sch).edge = some { source := s, target := t, caption := sch.edgeCaption,
                                  label := gettext sch.edgeLabel,
                                  directed := sch.edgeDirected }) := by
  refine ⟨?_, ?_, ?_⟩
  · intro h
    simp [to_dict, h]
  · rintro (h | h) <;> simp [to_dict, h, truthyOpt]
  · intro s t hs hs0 ht ht0
    have hse : s.isEmpty = false := by
      cases hse : s.isEmpty
      · rfl
      · exact absurd ((String.isEmpty_iff s).1 hse) hs0
    have hte : t.isEmpty = false := by
      cases hte : t.isEmpty
      · rfl
      · exact absurd ((String.isEmpty_iff t).1 hte) ht0
    simp [to_dict, hs, ht, truthyOpt, hse, hte]

/-- Concrete schema for the C8 witness: empty featured, edge with both
endpoints set. -/
def c8Sch : SchemaState :=
  schemaInit "E" { emptySchemaData with
    edge := some { source := some "s", target := some "t", caption := [],
                   label := none, directed := none },
    properties := [("s", emptyPropData), ("t", emptyPropData)] }

/-- A second concrete schema for the C8 witness: no edge declared. -/
def c8Sch2 : SchemaState := schemaInit "F" emptySchemaData

/-- Witness for C8: the featured key is omitted on `c8Sch2`, the edge key is
omitted on `c8Sch2` and included on `c8Sch`. -/
theorem c8_to_dict_omissions_witness :
    (to_dict c8Sch2).featured = none ∧ (to_dict c8Sch2).edge = none ∧
    (to_dict c8Sch).edge = some { source := "s", target := "t", caption := [],
                                  label := gettext c8Sch.edgeLabel,
                                  directed := c8Sch.edgeDirected } := by
  refine ⟨?_, ?_, ?_⟩
  · exact (c8_to_dict_omissions c8Sch2).1 (by rfl)
  · exact (c8_to_dict_omissions c8Sch2).2.1 (Or.inl (by rfl))
  · exact (c8_to_dict_omissions c8Sch).2.2 "s" "t" (by rfl) (by decide) (by rfl) (by decide)

/-- C9: `matchable` defaults to true when the raw configuration has no
`matchable` key (unlike `abstract` and `generated`, which default to false);
such a schema's `to_dict` carries `matchable := some true` and the schema
participates in its own `matchable_schemata`. -/
theorem c9_matchable_default (n : String) (d : SchemaData) (st : ModelState)
    (hm : d.matchable = none) :
    (schemaInit n d).matchable = true ∧
    (d.abstract = none → (schemaInit n d).abstract = false) ∧
    (d.generated = none → (schemaInit n d).generated = false) ∧
    (to_dict (schemaInit n d)).matchable = some true ∧
    (st n = some (schemaInit n d) → n ∈ matchable_schemata st (schemaInit n d)) := by
  refine ⟨?_, ?_, ?_, ?_, ?_⟩
  · simp [schemaInit, hm]
  · intro h; simp [schemaInit, h]
  · intro h; simp [schemaInit, h]
  · simp [to_dict, schemaInit, hm]
  · intro h
    simp [matchable_schemata, schemaInit, hm, matchableFlag, h]

/-! ### Matchable-schema traversal -/

theorem mem_foldl_insertName (n : String) :
    ∀ (l : List String) (init : List String),
      n ∈ l.foldl insertName init ↔ n ∈ init ∨ n ∈ l := by
  intro l
  induction l with
  | nil => intro init; simp
  | cons hd tl ih =>
    intro init
    rw [List.foldl_cons, ih, mem_insertName]
    constructor
    · rintro ((h | h) | h)
      · exact Or.inl h
      · exact Or.inr (by simp [h])
      · exact Or.inr (by simp [h])
    · rintro (h | h)
      · exact Or.inl (Or.inl h)
      · rcases List.mem_cons.1 h with h | h
        · exact Or.inl (Or.inr h)
        · exact Or.inr h

/-- C7: `matchable_schemata` is empty whenever the schema itself is not
matchable, regardless of its ancestors and descendants; otherwise it yields
exactly the members of the union of its `schemata` (inclusive of self) and
its `descendants` whose own matchable flag is set. -/
theorem c7_matchable_schemata (st : ModelState) (sch : SchemaState) :
    (sch.matchable = false → matchable_schemata st sch = []) ∧
    (sch.matchable = true → ∀ n, n ∈ matchable_schemata st sch ↔
      ((n ∈ sch.schemata ∨ n ∈ sch.descendants) ∧ matchableFlag st n = true)) := by
  constructor
  · intro h
    simp [matchable_schemata, h]
  · intro h n
    simp only [matchable_schemata, h, Bool.not_true, Bool.false_eq_true, if_false]
    rw [List.mem_filter, mem_foldl_insertName]

/-- Concrete model for the C7 witness: a non-matchable schema `U` and a
matchable schema `M`. -/
def c7St : ModelState :=
  mkState [("U", { emptySchemaData with matchable := some false }), ("M", emptySchemaData)]

/-- The non-matchable schema of `c7St`. -/
def c7U : SchemaState := schemaInit "U" { emptySchemaData with matchable := some false }

/-- The matchable schema of `c7St`. -/
def c7M : SchemaState := schemaInit "M" emptySchemaData

/-- Witness for C7 at the concrete model `c7St`. -/
theorem c7_matchable_schemata_witness :
    matchable_schemata c7St c7U = [] ∧
    ("M" ∈ matchable_schemata c7St c7M ↔
      (("M" ∈ c7M.schemata ∨ "M" ∈ c7M.descendants) ∧ matchableFlag c7St "M" = true)) :=
  ⟨(c7_matchable_schemata c7St c7U).1 (by rfl),
   (c7_matchable_schemata c7St c7M).2 (by rfl) "M"⟩

/-! ### Growth: resolution only adds, never removes or replaces

`SchemaLE a b` says schema state `b` is `a` with possibly more derived
structure: the raw data and identity are unchanged, the derived sets only
grew, and every property binding of `a` is still present, bound to the same
property object. -/

structure SchemaLE (a b : SchemaState) : Prop where
  name_eq : b.name = a.name
  data_eq : b.data = a.data
  featured_eq : b.featured = a.featured
  required_eq : b.required = a.required
  caption_eq : b.caption = a.caption
  edgeSource_eq : b.edgeSource = a.edgeSource
  edgeTarget_eq : b.edgeTarget = a.edgeTarget
  exts_sub : a.exts ⊆ b.exts
  schemata_sub : a.schemata ⊆ b.schemata
  names_sub : a.names ⊆ b.names
  descendants_sub : a.descendants ⊆ b.descendants
  props_le : ∀ n p, a.get n = some p → b.get n = some p

theorem SchemaLE.le_refl (a : SchemaState) : SchemaLE a a :=
  ⟨rfl, rfl, rfl, rfl, rfl, rfl, rfl, fun _ h => h, fun _ h => h, fun _ h => h,
   fun _ h => h, fun _ _ h => h⟩

theorem SchemaLE.le_trans {a b c : SchemaState} (h1 : SchemaLE a b) (h2 : SchemaLE b c) :
    SchemaLE a c :=
  ⟨h2.name_eq.trans h1.name_eq, h2.data_eq.trans h1.data_eq,
   h2.featured_eq.trans h1.featured_eq, h2.required_eq.trans h1.required_eq,
   h2.caption_eq.trans h1.caption_eq, h2.edgeSource_eq.trans h1.edgeSource_eq,
   h2.edgeTarget_eq.trans h1.edgeTarget_eq,
   fun x hx => h2.exts_sub (h1.exts_sub hx),
   fun x hx => h2.schemata_sub (h1.schemata_sub hx),
   fun x hx => h2.names_sub (h1.names_sub hx),
   fun x hx => h2.descendants_sub (h1.descendants_sub hx),
   fun n p hp => h2.props_le n p (h1.props_le n p hp)⟩

/-- `Evolves st st'` : every schema of `st` has monotonically evolved in
`st'`, and no schema was created or destroyed. -/
def Evolves (st st' : ModelState) : Prop :=
  ∀ n, (st n = none ∧ st' n = none) ∨
       (∃ a b, st n = some a ∧ st' n = some b ∧ SchemaLE a b)

theorem Evolves.ev_refl (st : ModelState) : Evolves st st := by
  intro n
  cases h : st n with
  | none => exact Or.inl ⟨rfl, rfl⟩
  | some a => exact Or.inr ⟨a, a, rfl, rfl, SchemaLE.le_refl a⟩

theorem Evolves.ev_trans {st1 st2 st3 : ModelState}
    (h1 : Evolves st1 st2) (h2 : Evolves st2 st3) : Evolves st1 st3 := by
  intro n
  rcases h1 n with ⟨ha, hb⟩ | ⟨a, b, ha, hb, hab⟩
  · rcases h2 n with ⟨hc, hd⟩ | ⟨c, d, hc, hd, hcd⟩
    · exact Or.inl ⟨ha, hd⟩
    · rw [hb] at hc; exact absurd hc (by simp)
  · rcases h2 n with ⟨hc, hd⟩ | ⟨c, d, hc, hd, hcd⟩
    · rw [hb] at hc; exact absurd hc (by simp)
    · rw [hb] at hc
      injection hc with hc
      subst hc
      exact Or.inr ⟨a, d, ha, hd, hab.le_trans hcd⟩

theorem Evolves.lookup_some {st st' : ModelState} (h : Evolves st st')
    {n : String} {a : SchemaState} (ha : st n = some a) :
    ∃ b, st' n = some b ∧ SchemaLE a b := by
  rcases h n with ⟨h1, _⟩ | ⟨c, b, hc, hb, hcb⟩
  · rw [h1] at ha; exact absurd ha (by simp)
  · rw [hc] at ha
    injection ha with ha
    subst ha
    exact ⟨b, hb, hcb⟩

theorem Evolves.lookup_none {st st' : ModelState} (h : Evolves st st')
    {n : String} (hn : st n = none) : st' n = none := by
  rcases h n with ⟨_, h2⟩ | ⟨a, b, ha, _, _⟩
  · exact h2
  · rw [ha] at hn; exact absurd hn (by simp)

theorem Evolves.lookup_some_rev {st st' : ModelState} (h : Evolves st st')
    {n : String} {b : SchemaState} (hb : st' n = some b) :
    ∃ a, st n = some a ∧ SchemaLE a b := by
  rcases h n with ⟨h1, h2⟩ | ⟨a, c, ha, hc, hac⟩
  · rw [h2] at hb; exact absurd hb (by simp)
  · rw [hc] at hb
    injection hb with hb
    subst hb
    exact ⟨a, ha, hac⟩

theorem Evolves.props {st st' : ModelState} (h : Evolves st st')
    {T n : String} {p : Property} (hp : lookupProp st T n = some p) :
    lookupProp st' T n = some p := by
  obtain ⟨sch, hT, hg⟩ := (lookupProp_eq_some st T n p).1 hp
  obtain ⟨sch', hT', hle⟩ := h.lookup_some hT
  exact (lookupProp_eq_some st' T n p).2 ⟨sch', hT', hle.props_le n p hg⟩

/-- Updating one schema monotonically is a monotone evolution. -/
theorem evolves_setSchema (st : ModelState) (n : String) {a b : SchemaState}
    (ha : st n = some a) (hab : SchemaLE a b) : Evolves st (setSchema st n b) := by
  intro m
  by_cases hm : m = n
  · subst hm
    exact Or.inr ⟨a, b, ha, setSchema_same st m b, hab⟩
  · rw [setSchema_other st n b m hm]
    exact Evolves.ev_refl st m

/-! The property-merge fold of `Schema.generate` (lines 75-77). -/

theorem mergeFold_preserves (qs : List (String × Property)) :
    ∀ (ps : List (String × Property)) (m : String) (pr : String × Property),
      ps.find? (fun q => q.1 == m) = some pr →
      (mergeProps qs ps).find? (fun q => q.1 == m) = some pr := by
  induction qs with
  | nil => intro ps m pr h; exact h
  | cons np qs ih =>
    intro ps m pr h
    rw [mergeProps, List.foldl_cons]
    by_cases hany : ps.any (fun q => q.1 == np.1) = true
    · rw [if_pos hany]
      exact ih ps m pr h
    · rw [if_neg hany]
      apply ih
      rw [List.find?_append, h]
      rfl

theorem mergeFold_new (qs : List (String × Property)) :
    ∀ (ps : List (String × Property)) (m : String),
      ps.find? (fun q => q.1 == m) = none →
      (mergeProps qs ps).find? (fun q => q.1 == m) = qs.find? (fun q => q.1 == m) := by
  induction qs with
  | nil => intro ps m h; simpa [mergeProps, List.find?] using h
  | cons np qs ih =>
    intro ps m h
    rw [mergeProps, List.foldl_cons]
    by_cases hnp : np.1 = m
    · have hany : ps.any (fun q => q.1 == np.1) = false := by
        rw [List.any_eq_false]
        intro x hx
        rw [hnp]
        intro hc
        have : (ps.find? (fun q => q.1 == m)).isSome := List.find?_isSome.2 ⟨x, hx, hc⟩
        rw [h] at this
        exact absurd this (by simp)
      rw [if_neg (by simp [hany])]
      have hfind : (ps ++ [np]).find? (fun q => q.1 == m) = some np := by
        rw [List.find?_append, h]
        simp [List.find?, hnp]
      have hpres := mergeFold_preserves qs (ps ++ [np]) m np hfind
      rw [mergeProps] at hpres
      rw [hpres, List.find?_cons_of_pos _ (by simp [hnp])]
    · have hne : (np.1 == m) = false := by simp [hnp]
      rw [List.find?_cons_of_neg _ (by simp [hnp])]
      by_cases hany : ps.any (fun q => q.1 == np.1) = true
      · rw [if_pos hany]
        exact ih ps m h
      · rw [if_neg hany]
        apply ih
        rw [List.find?_append, h]
        simp [List.find?, hne]

theorem get_mergeProps_preserves (qs ps : List (String × Property)) (n : String)
    (p : Property) (h : (ps.find? (fun q => q.1 == n)).map (fun q => q.2) = some p) :
    ((mergeProps qs ps).find? (fun q => q.1 == n)).map (fun q => q.2) = some p := by
  obtain ⟨pr, hf, h2⟩ := Option.map_eq_some'.1 h
  rw [mergeFold_preserves qs ps n pr hf]
  simp [h2]

theorem foldl_evolves {f : ModelState → String → ModelState}
    (hf : ∀ st a, Evolves st (f st a)) (l : List String) :
    ∀ st, Evolves st (l.foldl f st) := by
  induction l with
  | nil => intro st; exact Evolves.ev_refl st
  | cons hd tl ih => intro st; exact (hf st hd).ev_trans (ih (f st hd))

theorem SchemaLE_schemata_names (s : SchemaState) (anc : String) :
    SchemaLE s { s with schemata := insertName s.schemata anc,
                        names := insertName s.names anc } :=
  ⟨rfl, rfl, rfl, rfl, rfl, rfl, rfl, fun _ h => h, subset_insertName _ _,
   subset_insertName _ _, fun _ h => h, fun _ _ h => h⟩

theorem SchemaLE_descendants (a : SchemaState) (self : String) :
    SchemaLE a { a with descendants := insertName a.descendants self } :=
  ⟨rfl, rfl, rfl, rfl, rfl, rfl, rfl, fun _ h => h, fun _ h => h, fun _ h => h,
   subset_insertName _ _, fun _ _ h => h⟩

theorem SchemaLE_merge (sch : SchemaState) (pn : String)
    (parentProps : List (String × Property)) :
    SchemaLE sch { sch with properties := mergeProps parentProps sch.properties,
                            exts := insertName sch.exts pn } :=
  ⟨rfl, rfl, rfl, rfl, rfl, rfl, rfl, subset_insertName _ _, fun _ h => h,
   fun _ h => h, fun _ h => h,
   fun n p h => get_mergeProps_preserves parentProps sch.properties n p h⟩

theorem ancStep_evolves (self : String) (st : ModelState) (anc : String) :
    Evolves st (ancStep self st anc) := by
  cases hs : st self with
  | none =>
    cases ha : st anc with
    | none =>
      simp only [ancStep, hs, ha]
      exact Evolves.ev_refl st
    | some a =>
      simp only [ancStep, hs, ha]
      exact evolves_setSchema st anc ha (SchemaLE_descendants a self)
  | some s =>
    have h1 : Evolves st (setSchema st self
        { s with schemata := insertName s.schemata anc,
                 names := insertName s.names anc }) :=
      evolves_setSchema st self hs (SchemaLE_schemata_names s anc)
    cases ha : (setSchema st self
        { s with schemata := insertName s.schemata anc,
                 names := insertName s.names anc }) anc with
    | none =>
      simp only [ancStep, hs, ha]
      exact h1
    | some a =>
      simp only [ancStep, hs, ha]
      exact h1.ev_trans (evolves_setSchema _ anc ha (SchemaLE_descendants a self))

theorem mergeParent_evolves (st : ModelState) (self pn : String) :
    Evolves st (mergeParent st self pn) := by
  unfold mergeParent
  cases hpn : st pn with
  | none => exact Evolves.ev_refl st
  | some parent =>
    cases hs : st self with
    | none => exact Evolves.ev_refl st
    | some sch =>
      exact (evolves_setSchema st self hs (SchemaLE_merge sch pn parent.properties)).ev_trans
        (foldl_evolves (ancStep_evolves self) parent.schemata _)

/-- The consistency checks either fail or return the state unchanged. -/
theorem checks_eq (st : ModelState) (self : String) (st' : ModelState)
    (h : checks st self = .ok st') : st' = st := by
  unfold checks at h
  split at h
  · exact absurd h (by simp)
  · split at h
    · exact absurd h (by simp)
    · split at h
      · exact absurd h (by simp)
      · split at h
        · exact absurd h (by simp)
        · split at h
          · split at h
            · exact absurd h (by simp)
            · split at h
              · exact absurd h (by simp)
              · injection h with h; exact h.symm
          · injection h with h; exact h.symm

/-- All five operations evolve the state monotonically: no schema is
created or destroyed, raw data and identity are untouched, derived sets
only grow, and existing property bindings are never removed or replaced. -/
theorem ops_evolve : ∀ f : Nat,
    (∀ st self st', generate f st self = .ok st' → Evolves st st') ∧
    (∀ st self l st', genParents f st self l = .ok st' → Evolves st st') ∧
    (∀ st l st', genProps f st l = .ok st' → Evolves st st') ∧
    (∀ st p st', propGenerate f st p = .ok st' → Evolves st st') ∧
    (∀ st T rd o st' p, add_reverse f st T rd o = .ok (st', p) → Evolves st st') := by
  intro f
  induction f with
  | zero =>
    refine ⟨?_, ?_, ?_, ?_, ?_⟩
    · intro st self st' h; exact absurd h (by simp [generate])
    · intro st self l st' h; exact absurd h (by simp [genParents])
    · intro st l st' h; exact absurd h (by simp [genProps])
    · intro st p st' h; exact absurd h (by simp [propGenerate])
    · intro st T rd o st' p h; exact absurd h (by simp [add_reverse])
  | succ f ih =>
    obtain ⟨ihg, ihp, ihpr, ihpg, ihar⟩ := ih
    refine ⟨?_, ?_, ?_, ?_, ?_⟩
    · intro st self st' h
      simp only [generate] at h
      split at h
      · exact absurd h (by simp)
      · rename_i sch hself
        split at h
        · exact absurd h (by simp)
        · rename_i st1 h1
          split at h
          · exact absurd h (by simp)
          · rename_i sch1 hself1
            split at h
            · exact absurd h (by simp)
            · rename_i st2 h2
              have e1 := ihp st self sch.data.exts st1 h1
              have e2 := ihpr st1 (sch1.properties.map (fun np => np.2)) st2 h2
              have e3 := checks_eq st2 self st' h
              rw [e3]
              exact e1.ev_trans e2
    · intro st self l st' h
      cases l with
      | nil =>
        simp only [genParents] at h
        injection h with h
        rw [← h]
        exact Evolves.ev_refl st
      | cons pn rest =>
        simp only [genParents] at h
        split at h
        · exact absurd h (by simp)
        · split at h
          · exact absurd h (by simp)
          · rename_i st1 h1
            have e1 := ihg st pn st1 h1
            have e2 := mergeParent_evolves st1 self pn
            have e3 := ihp (mergeParent st1 self pn) self rest st' h
            exact (e1.ev_trans e2).ev_trans e3
    · intro st l st' h
      cases l with
      | nil =>
        simp only [genProps] at h
        injection h with h
        rw [← h]
        exact Evolves.ev_refl st
      | cons p rest =>
        simp only [genProps] at h
        split at h
        · exact absurd h (by simp)
        · rename_i st1 h1
          exact (ihpg st p st1 h1).ev_trans (ihpr st1 rest st' h)
    · intro st p st' h
      simp only [propGenerate] at h
      split at h
      · split at h
        · injection h with h; rw [← h]; exact Evolves.ev_refl st
        · rename_i rn hrn
          split at h
          · injection h with h; rw [← h]; exact Evolves.ev_refl st
          · rename_i sch hsch
            split at h
            · injection h with h; rw [← h]; exact Evolves.ev_refl st
            · rename_i rd hrd
              split at h
              · exact absurd h (by simp)
              · rename_i st1 pr har
                injection h with h
                rw [← h]
                exact ihar st rn rd p st1 pr har
      · injection h with h; rw [← h]; exact Evolves.ev_refl st
    · intro st T rd o st' p h
      simp only [add_reverse] at h
      split at h
      · exact absurd h (by simp)
      · rename_i n hn
        split at h
        · exact absurd h (by simp)
        · rename_i sch hT
          split at h
          · rename_i prop hg
            simp only [Except.ok.injEq, Prod.mk.injEq] at h
            obtain ⟨h1, _⟩ := h
            rw [← h1]
            exact Evolves.ev_refl st
          · rename_i hg
            split at h
            · exact absurd h (by simp)
            · rename_i st1 hpg
              split at h
              · exact absurd h (by simp)
              · rename_i sch1 hT1
                simp only [Except.ok.injEq, Prod.mk.injEq] at h
                obtain ⟨h1, _⟩ := h
                rw [← h1]
                have e1 := ihpg st _ st1 hpg
                intro m
                by_cases hm : m = T
                · subst hm
                  obtain ⟨b, hb, hle⟩ := e1.lookup_some hT
                  rw [hT1] at hb
                  injection hb with hb
                  subst hb
                  refine Or.inr ⟨sch, _, hT, setSchema_same _ _ _, ?_⟩
                  refine ⟨hle.name_eq, hle.data_eq, hle.featured_eq, hle.required_eq,
                    hle.caption_eq, hle.edgeSource_eq, hle.edgeTarget_eq,
                    hle.exts_sub, hle.schemata_sub, hle.names_sub,
                    hle.descendants_sub, ?_⟩
                  intro m' p' hp'
                  have hm' : m' ≠ n := by
                    intro hc
                    rw [hc] at hp'
                    rw [hp'] at hg
                    exact absurd hg (by simp)
                  have h2 := hle.props_le m' p' hp'
                  rw [get_eq_findProp] at h2 ⊢
                  rw [find?_setProp_other sch1.properties n _ m' hm']
                  exact h2
                · rw [setSchema_other st1 T _ m hm]
                  exact e1 m

/-- One resolution step on the registry: a successful `generate` on any
schema, or a successful `_add_reverse` on any schema. -/
def ResolutionStep (st st' : ModelState) : Prop :=
  (∃ f T, generate f st T = .ok st') ∨
  (∃ f T rd o p, add_reverse f st T rd o = .ok (st', p))

theorem resolutionStep_evolves {st st' : ModelState} (h : ResolutionStep st st') :
    Evolves st st' := by
  rcases h with ⟨f, T, hg⟩ | ⟨f, T, rd, o, p, ha⟩
  · exact (ops_evolve f).1 st T st' hg
  · exact (ops_evolve f).2.2.2.2 st T rd o st' p ha

/-- C10: property maps only grow and existing bindings are never
overwritten: along any sequence of successful `generate` (on any schema)
and `_add_reverse` invocations, a property binding, once present, stays
bound to the same property object. -/
theorem c10_props_monotone (st st' : ModelState)
    (h : Relation.ReflTransGen ResolutionStep st st')
    (T n : String) (p : Property) (hp : lookupProp st T n = some p) :
    lookupProp st' T n = some p := by
  induction h with
  | refl => exact hp
  | tail _ hstep ih => exact (resolutionStep_evolves hstep).props ih

/-- Raw configuration of the schema `T` used by several witnesses. -/
def c4Data : SchemaData :=
  { emptySchemaData with properties := [("r", emptyPropData)] }

/-- Witness for C10: a `generate` step on the one-schema model `c4St`
preserves the binding of property `r` on schema `T`. -/
theorem c10_props_monotone_witness : lookupProp c4St "T" "r" = some c4P := by
  have hgen : generate 3 c4St "T" = .ok c4St := by rfl
  exact c10_props_monotone c4St c4St
    (Relation.ReflTransGen.single (Or.inl ⟨3, "T", hgen⟩)) "T" "r" c4P (by decide)

/-- The self-membership invariant of spec section 3: every schema is a
member of its own `schemata` and its name a member of its `names`. -/
def SelfInv (st : ModelState) : Prop :=
  ∀ n sch, st n = some sch → sch.name ∈ sch.schemata ∧ sch.name ∈ sch.names

/-- C6: self-membership holds at construction and at every point
thereafter: `Schema.__init__` seeds `schemata`/`names` with the schema
itself, and any number of resolution steps (on any schemas) preserves the
invariant for every schema in the registry. -/
theorem c6_self_membership :
    (∀ (defs : List (String × SchemaData)) (n : String) (sch : SchemaState),
        mkState defs n = some sch → sch.name ∈ sch.schemata ∧ sch.name ∈ sch.names) ∧
    (∀ st st', Relation.ReflTransGen ResolutionStep st st' → SelfInv st → SelfInv st') := by
  constructor
  · intro defs n sch h
    obtain ⟨d, _, hmap⟩ := Option.map_eq_some'.1 h
    rw [← hmap]
    simp [schemaInit]
  · intro st st' hchain hinv
    induction hchain with
    | refl => exact hinv
    | tail _ hstep ih =>
      intro n sch' h'
      obtain ⟨sch, hsch, hle⟩ := (resolutionStep_evolves hstep).lookup_some_rev h'
      obtain ⟨h1, h2⟩ := ih n sch hsch
      rw [hle.name_eq]
      exact ⟨hle.schemata_sub h1, hle.names_sub h2⟩

/-- Witness for C6: construction membership on a concrete schema, and
preservation along a concrete `generate` step. -/
theorem c6_self_membership_witness :
    ((schemaInit "T" c4Data).name ∈ (schemaInit "T" c4Data).schemata ∧
      (schemaInit "T" c4Data).name ∈ (schemaInit "T" c4Data).names) ∧
    ((schemaInit "T" c4Data).name ∈ (schemaInit "T" c4Data).schemata ∧
      (schemaInit "T" c4Data).name ∈ (schemaInit "T" c4Data).names) := by
  constructor
  · exact c6_self_membership.1 [("T", c4Data)] "T" (schemaInit "T" c4Data) (by rfl)
  · have hgen : generate 3 c4St "T" = .ok c4St := by rfl
    have hinv : SelfInv c4St := fun n sch h =>
      c6_self_membership.1 [("T", c4Data)] n sch h
    exact c6_self_membership.2 c4St c4St
      (Relation.ReflTransGen.single (Or.inl ⟨3, "T", hgen⟩)) hinv "T"
      (schemaInit "T" c4Data) (by rfl)

/-! ### Error kinds: resolution failures are model-definition errors -/

/-- A failure of the resolution pass: either the fuel artifact (the
source's unbounded recursion) or the fatal `InvalidModel` kind. -/
def ModelFailure (e : Err) : Prop :=
  e = .fuelExhausted ∨ ∃ msg, e = .invalidModel msg

theorem checks_error (st : ModelState) (self : String) (e : Err)
    (h : checks st self = .error e) : ∃ m, e = .invalidModel m := by
  unfold checks at h
  split at h
  · injection h with h; exact ⟨_, h.symm⟩
  · split at h
    · injection h with h; exact ⟨_, h.symm⟩
    · split at h
      · injection h with h; exact ⟨_, h.symm⟩
      · split at h
        · injection h with h; exact ⟨_, h.symm⟩
        · split at h
          · split at h
            · injection h with h; exact ⟨_, h.symm⟩
            · split at h
              · injection h with h; exact ⟨_, h.symm⟩
              · exact absurd h (by simp)
          · exact absurd h (by simp)

/-- Every failure of the five operations is a model failure: the engine
never raises the data-validation kind during resolution. -/
theorem ops_error_kinds : ∀ f : Nat,
    (∀ st self e, generate f st self = .error e → ModelFailure e) ∧
    (∀ st self l e, genParents f st self l = .error e → ModelFailure e) ∧
    (∀ st l e, genProps f st l = .error e → ModelFailure e) ∧
    (∀ st p e, propGenerate f st p = .error e → ModelFailure e) ∧
    (∀ st T rd o e, add_reverse f st T rd o = .error e → ModelFailure e) := by
  intro f
  induction f with
  | zero =>
    refine ⟨?_, ?_, ?_, ?_, ?_⟩
    · intro st self e h
      simp only [generate] at h
      injection h with h
      exact Or.inl h.symm
    · intro st self l e h
      simp only [genParents] at h
      injection h with h
      exact Or.inl h.symm
    · intro st l e h
      simp only [genProps] at h
      injection h with h
      exact Or.inl h.symm
    · intro st p e h
      simp only [propGenerate] at h
      injection h with h
      exact Or.inl h.symm
    · intro st T rd o e h
      simp only [add_reverse] at h
      injection h with h
      exact Or.inl h.symm
  | succ f ih =>
    obtain ⟨ihg, ihp, ihpr, ihpg, ihar⟩ := ih
    refine ⟨?_, ?_, ?_, ?_, ?_⟩
    · intro st self e h
      simp only [generate] at h
      split at h
      · injection h with h; exact Or.inr ⟨_, h.symm⟩
      · split at h
        · rename_i e1 heq1
          injection h with h
          exact ihp _ _ _ _ (h ▸ heq1)
        · split at h
          · injection h with h; exact Or.inr ⟨_, h.symm⟩
          · split at h
            · rename_i e1 heq1
              injection h with h
              exact ihpr _ _ _ (h ▸ heq1)
            · exact Or.inr (checks_error _ _ _ h)
    · intro st self l e h
      cases l with
      | nil =>
        simp only [genParents] at h
        exact absurd h (by simp)
      | cons pn rest =>
        simp only [genParents] at h
        split at h
        · injection h with h; exact Or.inr ⟨_, h.symm⟩
        · split at h
          · rename_i e1 heq1
            injection h with h
            exact ihg _ _ _ (h ▸ heq1)
          · exact ihp _ _ _ _ h
    · intro st l e h
      cases l with
      | nil =>
        simp only [genProps] at h
        exact absurd h (by simp)
      | cons p rest =>
        simp only [genProps] at h
        split at h
        · rename_i e1 heq1
          injection h with h
          exact ihpg _ _ _ (h ▸ heq1)
        · exact ihpr _ _ _ h
    · intro st p e h
      simp only [propGenerate] at h
      split at h
      · split at h
        · exact absurd h (by simp)
        · split at h
          · exact absurd h (by simp)
          · split at h
            · exact absurd h (by simp)
            · split at h
              · rename_i e1 heq1
                injection h with h
                exact ihar _ _ _ _ _ (h ▸ heq1)
              · exact absurd h (by simp)
      · exact absurd h (by simp)
    · intro st T rd o e h
      simp only [add_reverse] at h
      split at h
      · injection h with h; exact Or.inr ⟨_, h.symm⟩
      · split at h
        · injection h with h; exact Or.inr ⟨_, h.symm⟩
        · split at h
          · exact absurd h (by simp)
          · split at h
            · rename_i e1 heq1
              injection h with h
              exact ihpg _ _ _ (h ▸ heq1)
            · split at h
              · injection h with h; exact Or.inr ⟨_, h.symm⟩
              · exact absurd h (by simp)

/-- A parent list containing a name unknown to the registry never resolves:
`genParents` fails, and with the fatal model-definition kind unless the
fuel artifact fires first. -/
theorem genParents_unknown : ∀ (f : Nat) (st : ModelState) (self : String)
    (l : List String) (pn : String), pn ∈ l → st pn = none →
    genParents f st self l = .error .fuelExhausted ∨
    ∃ m, genParents f st self l = .error (.invalidModel m) := by
  intro f
  induction f with
  | zero =>
    intro st self l pn _ _
    exact Or.inl (by simp [genParents])
  | succ f ih =>
    intro st self l pn hmem hunk
    cases l with
    | nil => exact absurd hmem (by simp)
    | cons q rest =>
      cases hq : st q with
      | none =>
        exact Or.inr ⟨"Invalid schema: " ++ q, by simp [genParents, hq]⟩
      | some sq =>
        have hqne : pn ≠ q := by
          intro hc
          rw [hc] at hunk
          rw [hunk] at hq
          exact absurd hq (by simp)
        have hrest : pn ∈ rest := by
          rcases List.mem_cons.1 hmem with hc | hc
          · exact absurd hc hqne
          · exact hc
        cases hgen : generate f st q with
        | error e =>
          rcases ops_error_kinds f |>.1 st q e hgen with hfuel | ⟨m, hm⟩
          · exact Or.inl (by simp [genParents, hq, hgen, hfuel])
          · exact Or.inr ⟨m, by simp [genParents, hq, hgen, hm]⟩
        | ok st1 =>
          have hunk1 : st1 pn = none :=
            ((ops_evolve f).1 st q st1 hgen).lookup_none hunk
          have hunk2 : (mergeParent st1 self q) pn = none :=
            (mergeParent_evolves st1 self q).lookup_none hunk1
          rcases ih (mergeParent st1 self q) self rest pn hrest hunk2 with h | ⟨m, hm⟩
          · exact Or.inl (by simp [genParents, hq, hgen, h])
          · exact Or.inr ⟨m, by simp [genParents, hq, hgen, hm]⟩

/-- C3: if a schema's `extends` list contains a name unknown to the Model,
`generate` fails with the fatal model-definition kind (`InvalidModel`) and
with no other kind of failure; the only other conceivable outcome of the
embedding is the fuel artifact, which corresponds to the source's unbounded
recursion on cyclic input and is excluded by hypothesis. -/
theorem c3_unknown_parent (f : Nat) (st : ModelState) (S : String)
    (sch : SchemaState) (pn : String) (hS : st S = some sch)
    (hpn : pn ∈ sch.data.exts) (hunk : st pn = none)
    (hnofuel : generate f st S ≠ .error .fuelExhausted) :
    ∃ m, generate f st S = .error (.invalidModel m) := by
  match f with
  | 0 => exact absurd (by simp [generate]) hnofuel
  | f+1 =>
    rcases genParents_unknown f st S sch.data.exts pn hpn hunk with h | ⟨m, hm⟩
    · exact absurd (by simp [generate, hS, h]) hnofuel
    · exact ⟨m, by simp [generate, hS, hm]⟩

/-- Concrete model for the C3 witness: schema `S` extends the unknown name
`Nope`. -/
def c3St : ModelState :=
  mkState [("S", { emptySchemaData with exts := ["Nope"] })]

/-- Witness for C3 at the concrete model `c3St`. -/
theorem c3_unknown_parent_witness :
    ∃ m, generate 5 c3St "S" = .error (.invalidModel m) := by
  have heval : generate 5 c3St "S" = .error (.invalidModel "Invalid schema: Nope") := by rfl
  refine c3_unknown_parent 5 c3St "S"
    (schemaInit "S" { emptySchemaData with exts := ["Nope"] }) "Nope"
    (by rfl) (by decide) (by rfl) ?_
  intro hc
  rw [heval] at hc
  exact absurd hc (by simp)

/-! ### The inheritance graph: reachability and acyclicity -/

/-- `Reaches st S T`: schema `T` is reachable from `S` along one or more
raw `extends` edges of the registry. -/
inductive Reaches (st : ModelState) : String → String → Prop
  | edge (S T : String) (sch : SchemaState) :
      st S = some sch → T ∈ sch.data.exts → Reaches st S T
  | step (S T U : String) (sch : SchemaState) :
      st S = some sch → T ∈ sch.data.exts → Reaches st T U → Reaches st S U

theorem Reaches.rtrans {st : ModelState} {A B C : String}
    (h1 : Reaches st A B) (h2 : Reaches st B C) : Reaches st A C := by
  induction h1 with
  | edge S T sch hS hT => exact Reaches.step S T C sch hS hT h2
  | step S T U sch hS hT _ ih => exact Reaches.step S T C sch hS hT (ih h2)

theorem Reaches.evolves {st st' : ModelState} (he : Evolves st st')
    {S T : String} (h : Reaches st S T) : Reaches st' S T := by
  induction h with
  | edge S T sch hS hT =>
    obtain ⟨sch', hS', hle⟩ := he.lookup_some hS
    exact Reaches.edge S T sch' hS' (by rw [hle.data_eq]; exact hT)
  | step S T U sch hS hT _ ih =>
    obtain ⟨sch', hS', hle⟩ := he.lookup_some hS
    exact Reaches.step S T U sch' hS' (by rw [hle.data_eq]; exact hT) ih

/-- A first `extends` edge of any reachability path, closing a cycle when
the path is a cycle. -/
theorem reaches_head {st : ModelState} {S : String} (h : Reaches st S S) :
    ∃ sch pn, st S = some sch ∧ pn ∈ sch.data.exts ∧ Reaches st pn pn := by
  cases h with
  | edge S T sch hS hT => exact ⟨sch, S, hS, hT, Reaches.edge S S sch hS hT⟩
  | step S T U sch hS hT hTU =>
    exact ⟨sch, T, hS, hT, hTU.rtrans (Reaches.edge S T sch hS hT)⟩

/-- The source performs no cycle detection: on a cyclic `extends` graph,
`generate` recurses forever (never returns a result). -/
theorem no_cycle : ∀ f : Nat,
    (∀ st S st', Reaches st S S → generate f st S ≠ .ok st') ∧
    (∀ st S l st', (∃ pn ∈ l, Reaches st pn pn) →
      genParents f st S l ≠ .ok st') := by
  intro f
  induction f with
  | zero =>
    constructor
    · intro st S st' _ h
      exact absurd h (by simp [generate])
    · intro st S l st' _ h
      exact absurd h (by simp [genParents])
  | succ f ih =>
    obtain ⟨ihg, ihp⟩ := ih
    constructor
    · intro st S st' hcyc h
      simp only [generate] at h
      split at h
      · exact absurd h (by simp)
      · rename_i sch hS
        split at h
        · exact absurd h (by simp)
        · rename_i st1 h1
          obtain ⟨sch', pn, hS', hpn, hcyc'⟩ := reaches_head hcyc
          rw [hS] at hS'
          injection hS' with hS'
          subst hS'
          exact ihp st S sch.data.exts st1 ⟨pn, hpn, hcyc'⟩ h1
    · intro st S l st' hex h
      obtain ⟨pn, hmem, hcyc⟩ := hex
      cases l with
      | nil => exact absurd hmem (by simp)
      | cons q rest =>
        simp only [genParents] at h
        split at h
        · exact absurd h (by simp)
        · split at h
          · exact absurd h (by simp)
          · rename_i st1 h1
            rcases List.mem_cons.1 hmem with hc | hc
            · subst hc
              exact ihg st pn st1 hcyc h1
            · have he : Evolves st (mergeParent st1 S q) :=
                ((ops_evolve f).1 st q st1 h1).ev_trans (mergeParent_evolves st1 S q)
              exact ihp (mergeParent st1 S q) S rest st' ⟨pn, hc, hcyc.evolves he⟩ h

/-! ### The reverse-synthesis-free fragment -/

/-- No property anywhere in the registry carries reverse-link metadata, so
no stub synthesis can occur during resolution. -/
def NoRevProps (st : ModelState) : Prop :=
  ∀ T sch, st T = some sch → ∀ np ∈ sch.properties, np.2.data.reverse = none

/-- Property finalization is a no-op on a property without reverse
metadata. -/
theorem propGenerate_noop (f : Nat) (st : ModelState) (p : Property)
    (h : p.data.reverse = none) : propGenerate (f+1) st p = .ok st := by
  cases htype : (p.data.type == some "entity") with
  | false => simp [propGenerate, htype]
  | true =>
    cases hr : p.data.range with
    | none => simp [propGenerate, htype, hr]
    | some rn =>
      cases hst : st rn with
      | none => simp [propGenerate, htype, hr, hst]
      | some sch => simp [propGenerate, htype, hr, hst, h]

/-- Under the no-reverse condition on the snapshot, the property loop is the
identity whenever it succeeds, and success depends only on the fuel and the
snapshot length. -/
theorem genProps_NR : ∀ (f : Nat) (l : List Property) (st : ModelState),
    (∀ p ∈ l, p.data.reverse = none) →
    (genProps f st l = .ok st ∨ genProps f st l = .error .fuelExhausted) ∧
    (genProps f st l = .ok st ↔ l.length < f) := by
  intro f
  induction f with
  | zero =>
    intro l st _
    constructor
    · exact Or.inr (by simp [genProps])
    · simp [genProps]
  | succ f ih =>
    intro l st hnr
    cases l with
    | nil =>
      constructor
      · exact Or.inl (by simp [genProps])
      · simp [genProps]
    | cons p rest =>
      cases f with
      | zero =>
        have h0 : genProps 1 st (p :: rest) = .error .fuelExhausted := by
          simp [genProps, propGenerate]
        constructor
        · exact Or.inr h0
        · rw [h0]
          simp
      | succ f' =>
        have hstep : propGenerate (f'+1) st p = .ok st :=
          propGenerate_noop f' st p (hnr p (by simp))
        have hrest := ih rest st (fun q hq => hnr q (by simp [hq]))
        have hred : genProps (f'+1+1) st (p :: rest) = genProps (f'+1) st rest := by
          simp [genProps, hstep]
        constructor
        · rw [hred]
          exact hrest.1
        · rw [hred, hrest.2]
          simp only [List.length_cons]
          omega

/-- Every binding of the merged property list comes from one of its two
sources. -/
theorem mergeProps_mem (qs : List (String × Property)) :
    ∀ ps np, np ∈ mergeProps qs ps → np ∈ ps ∨ np ∈ qs := by
  induction qs with
  | nil => intro ps np h; exact Or.inl h
  | cons q qs ih =>
    intro ps np h
    rw [mergeProps, List.foldl_cons] at h
    by_cases hany : ps.any (fun r => r.1 == q.1) = true
    · rw [if_pos hany] at h
      rcases ih ps np h with h | h
      · exact Or.inl h
      · exact Or.inr (by simp [h])
    · rw [if_neg hany] at h
      rcases ih (ps ++ [q]) np h with h | h
      · rcases List.mem_append.1 h with h | h
        · exact Or.inl h
        · exact Or.inr (by simp at h; simp [h])
      · exact Or.inr (by simp [h])

/-- `ancStep` never changes any schema's property list. -/
theorem ancStep_entry (self : String) (st : ModelState) (anc : String)
    (T : String) :
    ((ancStep self st anc) T).map (fun s => s.properties) =
      (st T).map (fun s => s.properties) := by
  cases hs : st self with
  | none =>
    cases ha : st anc with
    | none => simp only [ancStep, hs, ha]
    | some a =>
      simp only [ancStep, hs, ha]
      by_cases hT : T = anc
      · subst hT
        rw [setSchema_same, ha]
        rfl
      · rw [setSchema_other _ _ _ _ hT]
  | some s =>
    have hprop1 : ((setSchema st self
        { s with schemata := insertName s.schemata anc,
                 names := insertName s.names anc }) T).map (fun s => s.properties) =
        (st T).map (fun s => s.properties) := by
      by_cases hT : T = self
      · subst hT
        rw [setSchema_same, hs]
        rfl
      · rw [setSchema_other _ _ _ _ hT]
    cases ha : (setSchema st self
        { s with schemata := insertName s.schemata anc,
                 names := insertName s.names anc }) anc with
    | none =>
      simp only [ancStep, hs, ha]
      exact hprop1
    | some a =>
      simp only [ancStep, hs, ha]
      by_cases hT : T = anc
      · subst hT
        rw [setSchema_same, ← hprop1, ha]
        rfl
      · rw [setSchema_other _ _ _ _ hT]
        exact hprop1

/-- The ancestor loop never changes any schema's property list. -/
theorem ancFold_entry (self : String) (ancs : List String) :
    ∀ (st : ModelState) (T : String),
      ((ancs.foldl (ancStep self) st) T).map (fun s => s.properties) =
        (st T).map (fun s => s.properties) := by
  induction ancs with
  | nil => intro st T; rfl
  | cons a ancs ih =>
    intro st T
    rw [List.foldl_cons, ih]
    exact ancStep_entry self st a T

/-- `NoRevProps` is preserved by `mergeParent`. -/
theorem mergeParent_NR (st : ModelState) (self pn : String)
    (h : NoRevProps st) : NoRevProps (mergeParent st self pn) := by
  intro T sch' hT np hnp
  cases hpn : st pn with
  | none =>
    simp only [mergeParent, hpn] at hT
    exact h T sch' hT np hnp
  | some parent =>
    cases hs : st self with
    | none =>
      simp only [mergeParent, hpn, hs] at hT
      exact h T sch' hT np hnp
    | some sch =>
      simp only [mergeParent, hpn, hs] at hT
      have hfold := ancFold_entry self parent.schemata
        (setSchema st self
          { sch with properties := mergeProps parent.properties sch.properties,
                     exts := insertName sch.exts pn }) T
      rw [hT] at hfold
      by_cases hTs : T = self
      · subst hTs
        rw [setSchema_same] at hfold
        simp only [Option.map_some'] at hfold
        have hprops : sch'.properties = mergeProps parent.properties sch.properties := by
          injection hfold with hfold
        rw [hprops] at hnp
        rcases mergeProps_mem parent.properties sch.properties np hnp with hm | hm
        · exact h T sch hs np hm
        · exact h pn parent hpn np hm
      · rw [setSchema_other _ _ _ _ hTs] at hfold
        cases hT0 : st T with
        | none => rw [hT0] at hfold; exact absurd hfold (by simp)
        | some sch0 =>
          rw [hT0] at hfold
          simp only [Option.map_some'] at hfold
          have hprops : sch'.properties = sch0.properties := by
            injection hfold with hfold
          rw [hprops] at hnp
          exact h T sch0 hT0 np hnp

theorem Reaches.evolves_rev {st st' : ModelState} (he : Evolves st st')
    {S T : String} (h : Reaches st' S T) : Reaches st S T := by
  induction h with
  | edge S T sch' hS hT =>
    obtain ⟨sch, hs, hle⟩ := he.lookup_some_rev hS
    exact Reaches.edge S T sch hs (by rw [← hle.data_eq]; exact hT)
  | step S T U sch' hS hT _ ih =>
    obtain ⟨sch, hs, hle⟩ := he.lookup_some_rev hS
    exact Reaches.step S T U sch hs (by rw [← hle.data_eq]; exact hT) ih

/-- `NoRevProps` is preserved by `generate` and its parent loop, and under
it the property-finalization loop is the identity. -/
theorem NR_ops : ∀ f : Nat,
    (∀ st self st', NoRevProps st → generate f st self = .ok st' → NoRevProps st') ∧
    (∀ st self l st', NoRevProps st → genParents f st self l = .ok st' →
      NoRevProps st') := by
  intro f
  induction f with
  | zero =>
    constructor
    · intro st self st' _ hg; exact absurd hg (by simp [generate])
    · intro st self l st' _ hg; exact absurd hg (by simp [genParents])
  | succ f ih =>
    obtain ⟨ihg, ihp⟩ := ih
    constructor
    · intro st self st' hNR hg
      simp only [generate] at hg
      split at hg
      · exact absurd hg (by simp)
      · rename_i sch hself
        split at hg
        · exact absurd hg (by simp)
        · rename_i st1 h1
          split at hg
          · exact absurd hg (by simp)
          · rename_i sch1 hself1
            split at hg
            · exact absurd hg (by simp)
            · rename_i st2 h2
              have hNR1 : NoRevProps st1 := ihp st self sch.data.exts st1 hNR h1
              have hsnap : ∀ p ∈ sch1.properties.map (fun np => np.2),
                  p.data.reverse = none := by
                intro p hp
                obtain ⟨np, hnp, hfe⟩ := List.mem_map.1 hp
                rw [← hfe]
                exact hNR1 self sch1 hself1 np hnp
              rcases (genProps_NR f (sch1.properties.map (fun np => np.2)) st1 hsnap).1
                with hok | herr
              · rw [h2] at hok
                injection hok with hok
                rw [checks_eq st2 self st' hg, hok]
                exact hNR1
              · rw [h2] at herr
                exact absurd herr (by simp)
    · intro st self l st' hNR hg
      cases l with
      | nil =>
        simp only [genParents] at hg
        injection hg with hg
        rw [← hg]
        exact hNR
      | cons pn rest =>
        simp only [genParents] at hg
        split at hg
        · exact absurd hg (by simp)
        · split at hg
          · exact absurd hg (by simp)
          · rename_i st1 h1
            exact ihp _ self rest st' (mergeParent_NR st1 self pn (ihg st pn st1 hNR h1)) hg

/-- The property list of one schema (for framing lemmas). -/
def propsAt (st : ModelState) (T : String) : Option (List (String × Property)) :=
  (st T).map (fun s => s.properties)

theorem mergeParent_props_other (st : ModelState) (self pn T : String)
    (h : T ≠ self) : propsAt (mergeParent st self pn) T = propsAt st T := by
  cases hpn : st pn with
  | none => simp only [propsAt, mergeParent, hpn]
  | some parent =>
    cases hs : st self with
    | none => simp only [propsAt, mergeParent, hpn, hs]
    | some sch =>
      simp only [propsAt, mergeParent, hpn, hs]
      rw [ancFold_entry self parent.schemata _ T]
      rw [setSchema_other _ _ _ _ h]

/-- The property list of this schema right after a parent merge. -/
theorem mergeParent_props_self (st : ModelState) (self pn : String)
    (parent sch : SchemaState) (hpn : st pn = some parent)
    (hs : st self = some sch) :
    propsAt (mergeParent st self pn) self =
      some (mergeProps parent.properties sch.properties) := by
  simp only [propsAt, mergeParent, hpn, hs]
  rw [ancFold_entry self parent.schemata _ self]
  rw [setSchema_same]
  rfl

/-- Under the no-reverse condition, resolution modifies the property lists
only of the schema being resolved and of schemas reachable from it in the
`extends` graph. -/
theorem ops_touch : ∀ f : Nat,
    (∀ st self st' T, NoRevProps st → generate f st self = .ok st' →
      T ≠ self → ¬ Reaches st self T → propsAt st' T = propsAt st T) ∧
    (∀ st self l st' T, NoRevProps st → genParents f st self l = .ok st' →
      T ≠ self → (∀ pn ∈ l, T ≠ pn ∧ ¬ Reaches st pn T) →
      propsAt st' T = propsAt st T) := by
  intro f
  induction f with
  | zero =>
    constructor
    · intro st self st' T _ hg; exact absurd hg (by simp [generate])
    · intro st self l st' T _ hg; exact absurd hg (by simp [genParents])
  | succ f ih =>
    obtain ⟨ihg, ihp⟩ := ih
    constructor
    · intro st self st' T hNR hg hTs hTr
      simp only [generate] at hg
      split at hg
      · exact absurd hg (by simp)
      · rename_i sch hself
        split at hg
        · exact absurd hg (by simp)
        · rename_i st1 h1
          split at hg
          · exact absurd hg (by simp)
          · rename_i sch1 hself1
            split at hg
            · exact absurd hg (by simp)
            · rename_i st2 h2
              have hpar : ∀ pn ∈ sch.data.exts, T ≠ pn ∧ ¬ Reaches st pn T := by
                intro pn hpn
                constructor
                · intro hc
                  subst hc
                  exact hTr (Reaches.edge self T sch hself hpn)
                · intro hc
                  exact hTr (Reaches.step self pn T sch hself hpn hc)
              have hstep1 := ihp st self sch.data.exts st1 T hNR h1 hTs hpar
              have hNR1 : NoRevProps st1 := (NR_ops f).2 st self sch.data.exts st1 hNR h1
              have hsnap : ∀ p ∈ sch1.properties.map (fun np => np.2),
                  p.data.reverse = none := by
                intro p hp
                obtain ⟨np, hnp, hfe⟩ := List.mem_map.1 hp
                rw [← hfe]
                exact hNR1 self sch1 hself1 np hnp
              rcases (genProps_NR f (sch1.properties.map (fun np => np.2)) st1 hsnap).1
                with hok | herr
              · rw [h2] at hok
                injection hok with hok
                rw [checks_eq st2 self st' hg, hok, hstep1]
              · rw [h2] at herr
                exact absurd herr (by simp)
    · intro st self l st' T hNR hg hTs hl
      cases l with
      | nil =>
        simp only [genParents] at hg
        injection hg with hg
        rw [← hg]
      | cons pn rest =>
        simp only [genParents] at hg
        split at hg
        · exact absurd hg (by simp)
        · split at hg
          · exact absurd hg (by simp)
          · rename_i st1 h1
            obtain ⟨hTpn, hRpn⟩ := hl pn (by simp)
            have hstep1 := ihg st pn st1 T hNR h1 hTpn hRpn
            have hstep2 := mergeParent_props_other st1 self pn T hTs
            have hNR1 : NoRevProps st1 := (NR_ops f).1 st pn st1 hNR h1
            have hev : Evolves st (mergeParent st1 self pn) :=
              ((ops_evolve f).1 st pn st1 h1).ev_trans (mergeParent_evolves st1 self pn)
            have hrest : ∀ pn' ∈ rest, T ≠ pn' ∧
                ¬ Reaches (mergeParent st1 self pn) pn' T := by
              intro pn' hpn'
              obtain ⟨h1', h2'⟩ := hl pn' (by simp [hpn'])
              exact ⟨h1', fun hc => h2' (hc.evolves_rev hev)⟩
            rw [ihp _ self rest st' T (mergeParent_NR st1 self pn hNR1) hg hTs hrest,
              hstep2, hstep1]

/-- `NoRevProps` holds of a freshly constructed registry whose raw property
configurations carry no reverse metadata. -/
theorem NoRevProps_mkState (defs : List (String × SchemaData))
    (h : ∀ d ∈ defs, ∀ np ∈ d.2.properties, np.2.reverse = none) :
    NoRevProps (mkState defs) := by
  intro T sch hT np hnp
  simp only [mkState] at hT
  obtain ⟨d, hfind, hmap⟩ := Option.map_eq_some'.1 hT
  rw [← hmap] at hnp
  simp only [schemaInit] at hnp
  obtain ⟨np0, hnp0, hfe⟩ := List.mem_map.1 hnp
  have hd : d ∈ defs := List.mem_of_find?_eq_some hfind
  have hr := h d hd np0 hnp0
  rw [← hfe]
  simpa using hr

/-- `Schema.get` depends only on the property list. -/
theorem get_congr_props (a b : SchemaState) (n : String)
    (h : a.properties = b.properties) : a.get n = b.get n := by
  rw [get_eq_findProp, get_eq_findProp, h]

/-- The first-parent key fact: processing a parent list starting with `A`
merges `A`'s binding of a name this schema lacks into this schema, and the
binding survives to the end of the loop (no-reverse fragment). -/
theorem genParents_first_parent (f : Nat) (st st' : ModelState) (X A : String)
    (rest : List String) (p : String) (pa : Property) (schX : SchemaState)
    (hNR : NoRevProps st) (hX : st X = some schX)
    (hgp : genParents f st X (A :: rest) = .ok st')
    (hXA : X ≠ A) (hRA : ¬ Reaches st A X)
    (hXp : lookupProp st X p = none) (hAp : lookupProp st A p = some pa) :
    lookupProp st' X p = some pa := by
  match f with
  | 0 => exact absurd hgp (by simp [genParents])
  | f+1 =>
    simp only [genParents] at hgp
    split at hgp
    · exact absurd hgp (by simp)
    · split at hgp
      · exact absurd hgp (by simp)
      · rename_i stA h1
        have hev1 : Evolves st stA := (ops_evolve f).1 st A stA h1
        have htouch := (ops_touch f).1 st A stA X hNR h1 hXA hRA
        obtain ⟨schXA, hXA2, _⟩ := hev1.lookup_some hX
        have hpropsXA : schXA.properties = schX.properties := by
          have h2 : propsAt stA X = propsAt st X := htouch
          rw [propsAt, propsAt, hXA2, hX] at h2
          simpa using h2
        have hpaA : lookupProp stA A p = some pa := hev1.props hAp
        obtain ⟨parA0, hA0⟩ : ∃ parA0, st A = some parA0 := by
          obtain ⟨s0, h0, _⟩ := (lookupProp_eq_some st A p pa).1 hAp
          exact ⟨s0, h0⟩
        obtain ⟨parA, hparA, _⟩ := hev1.lookup_some hA0
        have hm := mergeParent_props_self stA X A parA schXA hparA hXA2
        have hXgp : schXA.get p = none := by
          have := hXp
          rw [lookupProp, hX] at this
          simp only [Option.some_bind] at this
          rw [← get_congr_props schXA schX p hpropsXA] at this
          exact this
        have hget : lookupProp (mergeParent stA X A) X p = some pa := by
          obtain ⟨sch2, hsch2⟩ : ∃ sch2, (mergeParent stA X A) X = some sch2 := by
            cases hc : (mergeParent stA X A) X with
            | none => rw [propsAt, hc] at hm; exact absurd hm (by simp)
            | some s => exact ⟨s, rfl⟩
          have hp2 : sch2.properties = mergeProps parA.properties schXA.properties := by
            rw [propsAt, hsch2] at hm
            simpa using hm
          rw [lookupProp, hsch2]
          simp only [Option.some_bind]
          rw [get_eq_findProp, hp2]
          have hfindXA : schXA.properties.find? (fun q => q.1 == p) = none := by
            rw [get_eq_findProp] at hXgp
            exact Option.map_eq_none'.1 hXgp
          rw [mergeFold_new parA.properties schXA.properties p hfindXA]
          obtain ⟨sA, hsA, hgA⟩ := (lookupProp_eq_some stA A p pa).1 hpaA
          rw [hparA] at hsA
          injection hsA with hsA
          subst hsA
          rw [get_eq_findProp] at hgA
          exact hgA
        have hev2 : Evolves (mergeParent stA X A) st' :=
          (ops_evolve f).2.1 _ X rest st' hgp
        exact hev2.props hget

/-- C1 (amended): locally declared properties always win over inherited
ones (unconditionally); and in the reverse-synthesis-free fragment, for a
schema `X` with `extends = [A, B]`, if `A` defines a property `p` when
`generate` is invoked on `X` and `X` does not, the resolved `X` maps `p` to
`A`'s binding — which is also still `A`'s binding after resolution
(leftmost parent wins; `B`'s like-named property is skipped). -/
theorem c1_leftmost_wins :
    (∀ (f : Nat) (st st' : ModelState) (X p : String) (q : Property),
        generate f st X = .ok st' → lookupProp st X p = some q →
        lookupProp st' X p = some q) ∧
    (∀ (f : Nat) (st st' : ModelState) (X A B p : String) (schX : SchemaState)
        (pa : Property),
        NoRevProps st → st X = some schX → schX.data.exts = [A, B] →
        generate f st X = .ok st' →
        lookupProp st X p = none → lookupProp st A p = some pa →
        lookupProp st' X p = some pa ∧ lookupProp st' A p = some pa) := by
  constructor
  · intro f st st' X p q hg hp
    exact ((ops_evolve f).1 st X st' hg).props hp
  · intro f st st' X A B p schX pa hNR hX hexts hg hXp hAp
    have hAfin : lookupProp st' A p = some pa := ((ops_evolve f).1 st X st' hg).props hAp
    refine ⟨?_, hAfin⟩
    match f with
    | 0 => exact absurd hg (by simp [generate])
    | f+1 =>
      have hXA : X ≠ A := by
        intro hc
        refine (no_cycle (f+1)).1 st X st' (Reaches.edge X X schX hX ?_) hg
        rw [hexts, hc]
        simp
      have hRA : ¬ Reaches st A X := by
        intro hc
        exact (no_cycle (f+1)).1 st X st'
          (Reaches.step X A X schX hX (by rw [hexts]; simp) hc) hg
      have hg0 := hg
      simp only [generate] at hg
      split at hg
      · exact absurd hg (by simp)
      · rename_i sch hself
        rw [hX] at hself
        injection hself with hself
        split at hg
        · exact absurd hg (by simp)
        · rename_i st1 h1
          rw [← hself, hexts] at h1
          have hkey := genParents_first_parent f st st1 X A [B] p pa schX hNR hX h1
            hXA hRA hXp hAp
          split at hg
          · exact absurd hg (by simp)
          · rename_i sch1 hself1
            split at hg
            · exact absurd hg (by simp)
            · rename_i st2 h2
              have hNR1 : NoRevProps st1 := by
                have := (NR_ops f).2 st X sch.data.exts st1
                rw [← hself, hexts] at this
                exact this hNR h1
              have hsnap : ∀ q ∈ sch1.properties.map (fun np => np.2),
                  q.data.reverse = none := by
                intro q hq
                obtain ⟨np, hnp, hfe⟩ := List.mem_map.1 hq
                rw [← hfe]
                exact hNR1 X sch1 hself1 np hnp
              rcases (genProps_NR f (sch1.properties.map (fun np => np.2)) st1 hsnap).1
                with hok | herr
              · rw [h2] at hok
                injection hok with hok
                rw [checks_eq st2 X st' hg, hok]
                exact hkey
              · rw [h2] at herr
                exact absurd herr (by simp)

/-- C1 counterexample model: `B` declares `p` and an entity-valued `q`
with a reverse link named `p` onto `A`; `X extends [A, B]`. -/
def c1DataA : SchemaData := emptySchemaData

/-- The reverse fragment of the C1 counterexample's property `q`. -/
def c1Rev : RevData := { name := some "p", label := none, hidden := none }

/-- The reverse-linking property `q` of the C1 counterexample. -/
def c1PropQ : PropData :=
  { emptyPropData with type := some "entity", range := some "A", reverse := some c1Rev }

/-- Raw configuration of schema `B` in the C1 counterexample. -/
def c1DataB : SchemaData :=
  { emptySchemaData with properties := [("p", emptyPropData), ("q", c1PropQ)] }

/-- Raw configuration of schema `X` in the C1 counterexample. -/
def c1DataX : SchemaData := { emptySchemaData with exts := ["A", "B"] }

/-- The C1 counterexample registry. -/
def c1St0 : ModelState :=
  mkState [("A", c1DataA), ("B", c1DataB), ("X", c1DataX)]

/-- Property lookup in the resolved C1 counterexample registry. -/
def c1look (T m : String) : Option Property :=
  match generate 20 c1St0 "X" with
  | .ok st => lookupProp st T m
  | .error _ => none

/-- C1 counterexample: after resolving `X` (extends `[A, B]`), both `A` and
`B` define a property named `p` — `A` through a reverse-link stub
synthesized during `B`'s resolution — yet `X`'s merged `p` is `B`'s
definition, not `A`'s: leftmost-wins fails under the final-state reading of
"A's definition". -/
theorem c1_counterexample :
    c1look "A" "p" ≠ none ∧ c1look "B" "p" ≠ none ∧
    c1look "X" "p" = c1look "B" "p" ∧
    c1look "X" "p" ≠ c1look "A" "p" := by
  refine ⟨by decide, by decide, by decide, by decide⟩

/-- Witness model for C1 (amended): a reverse-free diamond where `A` and
`B` both locally declare `p` with different configurations. -/
def c1wA : SchemaData :=
  { emptySchemaData with properties :=
      [("p", { emptyPropData with label := some "fromA" })] }

/-- Raw configuration of `B` in the C1 witness model. -/
def c1wB : SchemaData :=
  { emptySchemaData with properties :=
      [("p", { emptyPropData with label := some "fromB" })] }

/-- Raw configuration of `X` in the C1 witness model. -/
def c1wX : SchemaData := { emptySchemaData with exts := ["A", "B"] }

/-- The C1 witness registry. -/
def c1wSt : ModelState := mkState [("A", c1wA), ("B", c1wB), ("X", c1wX)]

/-- The C1 witness registry after resolving `X`. -/
def c1wSt' : ModelState :=
  match generate 10 c1wSt "X" with
  | .ok s => s
  | .error _ => c1wSt

/-- `A`'s binding of `p` in the C1 witness model. -/
def c1wPa : Property := ⟨"A", "p", { emptyPropData with label := some "fromA" }⟩

/-- Witness for C1 (amended) on the concrete diamond `c1wSt`. -/
theorem c1_leftmost_wins_witness :
    lookupProp c1wSt' "X" "p" = some c1wPa ∧
    lookupProp c1wSt' "A" "p" = some c1wPa := by
  have hNR : NoRevProps c1wSt :=
    NoRevProps_mkState [("A", c1wA), ("B", c1wB), ("X", c1wX)] (by decide)
  have hgen : generate 10 c1wSt "X" = .ok c1wSt' := by rfl
  exact c1_leftmost_wins.2 10 c1wSt c1wSt' "X" "A" "B" "p"
    (schemaInit "X" c1wX) c1wPa hNR (by rfl) (by rfl) hgen (by decide) (by decide)

/-! ### C2: idempotence of `generate` -/

/-- The reverse fragment of the C2 counterexample's property `link`. -/
def c2Rev : RevData := { name := some "rlink", label := none, hidden := none }

/-- The reverse-linking property `link` of the C2 counterexample. -/
def c2PropLink : PropData :=
  { emptyPropData with type := some "entity", range := some "A", reverse := some c2Rev }

/-- C2 counterexample model: `A`; `B extends A`; `C` declares the
entity-valued `link` with range `A` and reverse name `rlink`;
`X extends [B, C]`. -/
def c2DataA : SchemaData := emptySchemaData

/-- Raw configuration of schema `B` in the C2 counterexample. -/
def c2DataB : SchemaData := { emptySchemaData with exts := ["A"] }

/-- Raw configuration of schema `C` in the C2 counterexample. -/
def c2DataC : SchemaData :=
  { emptySchemaData with properties := [("link", c2PropLink)] }

/-- Raw configuration of schema `X` in the C2 counterexample. -/
def c2DataX : SchemaData := { emptySchemaData with exts := ["B", "C"] }

/-- The C2 counterexample registry. -/
def c2St0 : ModelState :=
  mkState [("A", c2DataA), ("B", c2DataB), ("C", c2DataC), ("X", c2DataX)]

/-- The property keys of schema `n` in the result of a resolution run. -/
def propKeys (r : Except Err ModelState) (n : String) : Option (List String) :=
  match r with
  | .ok st => (st n).map (fun s => s.properties.map (fun np => np.1))
  | .error _ => none

/-- C2 counterexample: resolving `X` a second time after a completed first
resolution changes `X`'s property mapping.  During the first run, `C`'s
resolution synthesizes the stub `rlink` onto `A` after `B` (which extends
`A`) was already resolved and merged; the second run re-resolves `B`, which
now inherits `rlink` from `A`, and `X` in turn inherits it from `B`. -/
theorem c2_counterexample :
    propKeys (generate 20 c2St0 "X") "X" = some ["link"] ∧
    propKeys ((generate 20 c2St0 "X").bind (fun st => generate 20 st "X")) "X" =
      some ["link", "rlink"] ∧
    (some ["link"] : Option (List String)) ≠ some ["link", "rlink"] := by
  refine ⟨by decide, by decide, by decide⟩

/-- The pure content of the consistency checks (lines 88-107), as a
predicate of the schema state alone. -/
def checksPass (sch : SchemaState) : Prop :=
  sch.featured.find? (fun n => (sch.get n).isNone) = none ∧
  sch.caption.find? (fun n => (sch.get n).isNone) = none ∧
  sch.required.find? (fun n => (sch.get n).isNone) = none ∧
  (sch.edge = true → sch.source_prop.isNone = false ∧ sch.target_prop.isNone = false)

theorem checksPass_checks (st : ModelState) (self : String) (sch : SchemaState)
    (hself : st self = some sch) (h : checksPass sch) : checks st self = .ok st := by
  obtain ⟨h1, h2, h3, h4⟩ := h
  simp only [checks, hself, h1, h2, h3]
  cases hedge : sch.edge with
  | false => simp [hedge]
  | true =>
    obtain ⟨h5, h6⟩ := h4 hedge
    simp [hedge, h5, h6]

theorem checks_ok_pass (st : ModelState) (self : String) (sch : SchemaState)
    (st' : ModelState) (hself : st self = some sch)
    (h : checks st self = .ok st') : checksPass sch := by
  simp only [checks, hself] at h
  split at h
  · exact absurd h (by simp)
  · rename_i h1
    split at h
    · exact absurd h (by simp)
    · rename_i h2
      split at h
      · exact absurd h (by simp)
      · rename_i h3
        split at h
        · rename_i hedge
          split at h
          · exact absurd h (by simp)
          · rename_i h5
            split at h
            · exact absurd h (by simp)
            · rename_i h6
              refine ⟨h1, h2, h3, fun _ => ⟨?_, ?_⟩⟩
              · cases hc : sch.source_prop.isNone with
                | false => rfl
                | true => exact absurd hc h5
              · cases hc : sch.target_prop.isNone with
                | false => rfl
                | true => exact absurd hc h6
        · rename_i hedge
          refine ⟨h1, h2, h3, fun hc => absurd hc hedge⟩

/-- The facts recorded by one completed parent merge: the parent is in
`exts`, all its property names are present on the child, and its ancestor
closure is unioned into the child's `schemata`/`names` with the child
registered as a descendant of every ancestor present in the registry. -/
def MergeFacts (st : ModelState) (S pn : String) : Prop :=
  ∃ sch par, st S = some sch ∧ st pn = some par ∧ pn ∈ sch.exts ∧
    (∀ np ∈ par.properties, sch.properties.any (fun q => q.1 == np.1) = true) ∧
    (∀ anc ∈ par.schemata, anc ∈ sch.schemata ∧ anc ∈ sch.names ∧
      (∀ ancS, st anc = some ancS → S ∈ ancS.descendants))

/-- A schema is `Done` in a state when re-running `generate` on it is a
no-op: it is present, each declared parent is present, `Done`, and fully
merged, and the consistency checks pass. -/
inductive Done (st : ModelState) : String → Prop
  | mk (S : String) (sch : SchemaState) :
      st S = some sch →
      (∀ pn ∈ sch.data.exts, Done st pn) →
      (∀ pn ∈ sch.data.exts, MergeFacts st S pn) →
      checksPass sch →
      Done st S

theorem Done.dest {st : ModelState} {S : String} (h : Done st S) :
    ∃ sch, st S = some sch ∧
      (∀ pn ∈ sch.data.exts, Done st pn) ∧
      (∀ pn ∈ sch.data.exts, MergeFacts st S pn) ∧ checksPass sch := by
  cases h with
  | mk S sch hS hpar hmf hchk => exact ⟨sch, hS, hpar, hmf, hchk⟩

/-- `b` is `a` with only the `descendants` set possibly grown — the only
change resolution ever applies to an already-`Done` schema. -/
structure EntryDescLE (a b : SchemaState) : Prop where
  eq_mk : b = { a with descendants := b.descendants }
  desc_sub : a.descendants ⊆ b.descendants

theorem EntryDescLE.ed_refl (a : SchemaState) : EntryDescLE a a :=
  ⟨rfl, fun _ h => h⟩

theorem EntryDescLE.ed_trans {a b c : SchemaState}
    (h1 : EntryDescLE a b) (h2 : EntryDescLE b c) : EntryDescLE a c := by
  constructor
  · rw [h2.eq_mk, h1.eq_mk]
  · exact fun x hx => h2.desc_sub (h1.desc_sub hx)

theorem EntryDescLE.props_eq {a b : SchemaState} (h : EntryDescLE a b) :
    b.properties = a.properties := by rw [h.eq_mk]

theorem EntryDescLE.schemata_eq {a b : SchemaState} (h : EntryDescLE a b) :
    b.schemata = a.schemata := by rw [h.eq_mk]

theorem EntryDescLE.names_eq {a b : SchemaState} (h : EntryDescLE a b) :
    b.names = a.names := by rw [h.eq_mk]

theorem EntryDescLE.exts_eq {a b : SchemaState} (h : EntryDescLE a b) :
    b.exts = a.exts := by rw [h.eq_mk]

theorem EntryDescLE.data_eq {a b : SchemaState} (h : EntryDescLE a b) :
    b.data = a.data := by rw [h.eq_mk]

theorem EntryDescLE.checksPass_iff {a b : SchemaState} (h : EntryDescLE a b) :
    checksPass b ↔ checksPass a := by rw [h.eq_mk]; rfl

/-- Entry-wise descendants-only evolution of one schema between states. -/
def entryDesc (st st' : ModelState) (T : String) : Prop :=
  ∀ sch, st T = some sch → ∃ sch', st' T = some sch' ∧ EntryDescLE sch sch'

theorem entryDesc_refl (st : ModelState) (T : String) : entryDesc st st T :=
  fun sch h => ⟨sch, h, EntryDescLE.ed_refl sch⟩

theorem entryDesc_trans {st1 st2 st3 : ModelState} {T : String}
    (h1 : entryDesc st1 st2 T) (h2 : entryDesc st2 st3 T) : entryDesc st1 st3 T := by
  intro sch h
  obtain ⟨b, hb, hab⟩ := h1 sch h
  obtain ⟨c, hc, hbc⟩ := h2 b hb
  exact ⟨c, hc, hab.ed_trans hbc⟩

/-- Merging a parent whose facts are already recorded is the identity. -/
theorem mergeProps_id (qs : List (String × Property)) :
    ∀ ps, (∀ np ∈ qs, ps.any (fun q => q.1 == np.1) = true) → mergeProps qs ps = ps := by
  induction qs with
  | nil => intro ps _; rfl
  | cons q qs ih =>
    intro ps h
    rw [mergeProps, List.foldl_cons, if_pos (h q (by simp))]
    exact ih ps (fun np hnp => h np (by simp [hnp]))

/-- Every parent property name is present after the merge. -/
theorem mergeProps_has (qs ps : List (String × Property)) (np : String × Property)
    (h : np ∈ qs) : (mergeProps qs ps).any (fun q => q.1 == np.1) = true := by
  have key : ((mergeProps qs ps).find? (fun q => q.1 == np.1)).isSome = true := by
    cases hfind : ps.find? (fun q => q.1 == np.1) with
    | some pr =>
      rw [mergeFold_preserves qs ps np.1 pr hfind]
      rfl
    | none =>
      rw [mergeFold_new qs ps np.1 hfind]
      exact List.find?_isSome.2 ⟨np, h, by simp⟩
  obtain ⟨pr, hpr⟩ := Option.isSome_iff_exists.1 key
  have hmem := List.mem_of_find?_eq_some hpr
  have hkey : (pr.1 == np.1) = true := by
    have := List.find?_some hpr
    simpa using this
  exact List.any_eq_true.2 ⟨pr, hmem, hkey⟩

/-- One ancestor step with its facts already recorded is the identity. -/
theorem ancStep_id (self : String) (st : ModelState) (anc : String)
    (s : SchemaState) (hs : st self = some s)
    (h1 : anc ∈ s.schemata) (h2 : anc ∈ s.names)
    (h3 : ∀ ancS, st anc = some ancS → self ∈ ancS.descendants) :
    ancStep self st anc = st := by
  have he1 : insertName s.schemata anc = s.schemata := insertName_id _ _ h1
  have he2 : insertName s.names anc = s.names := insertName_id _ _ h2
  have heta : ({ s with schemata := insertName s.schemata anc, names := insertName s.names anc } : SchemaState) = s := by
    rw [he1, he2]
  have hset : setSchema st self { s with schemata := insertName s.schemata anc, names := insertName s.names anc } = st := by
    rw [heta]
    exact setSchema_id st self s hs
  cases ha : st anc with
  | none =>
    simp only [ancStep, hs, hset, ha]
  | some ancS =>
    have he3 : insertName ancS.descendants self = ancS.descendants :=
      insertName_id _ _ (h3 ancS ha)
    simp only [ancStep, hs, hset, ha, he3]
    exact setSchema_id st anc ancS ha

/-- The whole ancestor loop with its facts already recorded is the
identity. -/
theorem ancFold_id (self : String) (ancs : List String) (st : ModelState)
    (s : SchemaState) (hs : st self = some s)
    (h : ∀ anc ∈ ancs, anc ∈ s.schemata ∧ anc ∈ s.names ∧
      (∀ ancS, st anc = some ancS → self ∈ ancS.descendants)) :
    ancs.foldl (ancStep self) st = st := by
  induction ancs with
  | nil => rfl
  | cons a ancs ih =>
    obtain ⟨h1, h2, h3⟩ := h a (by simp)
    rw [List.foldl_cons, ancStep_id self st a s hs h1 h2 h3]
    exact ih (fun anc hanc => h anc (by simp [hanc]))

/-- A parent merge whose facts are already recorded is the identity. -/
theorem mergeParent_id (st : ModelState) (S pn : String)
    (h : MergeFacts st S pn) : mergeParent st S pn = st := by
  obtain ⟨sch, par, hS, hpn, hexts, hprops, hanc⟩ := h
  have h1 : mergeProps par.properties sch.properties = sch.properties :=
    mergeProps_id _ _ hprops
  have h2 : insertName sch.exts pn = sch.exts := insertName_id _ _ hexts
  have heta : ({ sch with properties := mergeProps par.properties sch.properties, exts := insertName sch.exts pn } : SchemaState) = sch := by
    rw [h1, h2]
  simp only [mergeParent, hpn, hS, heta, setSchema_id st S sch hS]
  exact ancFold_id S par.schemata st sch hS hanc

/-- One ancestor step only grows the `descendants` of schemas other than
the one being resolved. -/
theorem ancStep_desc_other (self : String) (st : ModelState) (anc T : String)
    (h : T ≠ self) : entryDesc st (ancStep self st anc) T := by
  intro schT hT
  cases hs : st self with
  | none =>
    cases ha : st anc with
    | none =>
      refine ⟨schT, ?_, EntryDescLE.ed_refl schT⟩
      simp only [ancStep, hs, ha]
      exact hT
    | some a =>
      by_cases hTa : T = anc
      · subst hTa
        rw [hT] at ha
        injection ha with ha
        subst ha
        refine ⟨{ schT with descendants := insertName schT.descendants self }, ?_, ?_⟩
        · simp only [ancStep, hs, hT]
          exact setSchema_same _ _ _
        · exact ⟨rfl, subset_insertName _ _⟩
      · refine ⟨schT, ?_, EntryDescLE.ed_refl schT⟩
        simp only [ancStep, hs, ha]
        rw [setSchema_other _ _ _ _ hTa]
        exact hT
  | some s =>
    have hT1 : (setSchema st self { s with schemata := insertName s.schemata anc, names := insertName s.names anc }) T = some schT := by
      rw [setSchema_other _ _ _ _ h]
      exact hT
    cases ha : (setSchema st self { s with schemata := insertName s.schemata anc, names := insertName s.names anc }) anc with
    | none =>
      refine ⟨schT, ?_, EntryDescLE.ed_refl schT⟩
      simp only [ancStep, hs, ha]
      exact hT1
    | some a =>
      by_cases hTa : T = anc
      · subst hTa
        rw [hT1] at ha
        injection ha with ha
        subst ha
        refine ⟨{ schT with descendants := insertName schT.descendants self }, ?_, ?_⟩
        · simp only [ancStep, hs, hT1]
          exact setSchema_same _ _ _
        · exact ⟨rfl, subset_insertName _ _⟩
      · refine ⟨schT, ?_, EntryDescLE.ed_refl schT⟩
        simp only [ancStep, hs, ha]
        rw [setSchema_other _ _ _ _ hTa]
        exact hT1

/-- The ancestor loop only grows the `descendants` of schemas other than
the one being resolved. -/
theorem ancFold_desc_other (self : String) (ancs : List String) (T : String)
    (h : T ≠ self) : ∀ st : ModelState,
      entryDesc st (ancs.foldl (ancStep self) st) T := by
  induction ancs with
  | nil => intro st; exact entryDesc_refl st T
  | cons a ancs ih =>
    intro st
    rw [List.foldl_cons]
    exact entryDesc_trans (ancStep_desc_other self st a T h) (ih (ancStep self st a))

/-- A parent merge only grows the `descendants` of schemas other than the
one being resolved. -/
theorem mergeParent_desc_other (st : ModelState) (self pn T : String)
    (h : T ≠ self) : entryDesc st (mergeParent st self pn) T := by
  cases hpn : st pn with
  | none =>
    intro schT hT
    refine ⟨schT, ?_, EntryDescLE.ed_refl schT⟩
    simp only [mergeParent, hpn]
    exact hT
  | some parent =>
    cases hs : st self with
    | none =>
      intro schT hT
      refine ⟨schT, ?_, EntryDescLE.ed_refl schT⟩
      simp only [mergeParent, hpn, hs]
      exact hT
    | some sch =>
      intro schT hT
      have hT1 : (setSchema st self { sch with properties := mergeProps parent.properties sch.properties, exts := insertName sch.exts pn }) T = some schT := by
        rw [setSchema_other _ _ _ _ h]
        exact hT
      obtain ⟨schT', hT', hLE⟩ := ancFold_desc_other self parent.schemata T h _ schT hT1
      refine ⟨schT', ?_, hLE⟩
      simp only [mergeParent, hpn, hs]
      exact hT'

/-- The final state of the resolved schema across the ancestor loop:
properties, `extends` and raw data are untouched, `schemata`/`names` only
grow and end up containing every processed ancestor. -/
theorem ancFold_self (self : String) :
    ∀ (ancs : List String) (st : ModelState) (s : SchemaState), st self = some s →
      ∃ s', (ancs.foldl (ancStep self) st) self = some s' ∧
        s'.properties = s.properties ∧ s'.exts = s.exts ∧ s'.data = s.data ∧
        s.schemata ⊆ s'.schemata ∧ s.names ⊆ s'.names ∧
        (∀ a ∈ ancs, a ∈ s'.schemata ∧ a ∈ s'.names) := by
  intro ancs
  induction ancs with
  | nil =>
    intro st s hs
    exact ⟨s, hs, rfl, rfl, rfl, fun _ h => h, fun _ h => h, by simp⟩
  | cons a ancs ih =>
    intro st s hs
    have hstep : (ancStep self st a) self =
        some { s with schemata := insertName s.schemata a, names := insertName s.names a } ∨
        (ancStep self st a) self =
        some { s with schemata := insertName s.schemata a, names := insertName s.names a,
                      descendants := insertName s.descendants self } := by
      by_cases hsa : a = self
      · subst hsa
        right
        simp only [ancStep, hs, setSchema_same]
      · cases ha : (setSchema st self { s with schemata := insertName s.schemata a, names := insertName s.names a }) a with
        | none =>
          left
          simp only [ancStep, hs, ha]
          exact setSchema_same _ _ _
        | some aS =>
          left
          simp only [ancStep, hs, ha]
          rw [setSchema_other _ _ _ _ (fun hc => hsa hc.symm)]
          exact setSchema_same _ _ _
    rw [List.foldl_cons]
    rcases hstep with hstep | hstep
    · obtain ⟨s', hs', hp, he, hd, hsch, hnm, hancs⟩ := ih (ancStep self st a) _ hstep
      refine ⟨s', hs', hp, he, hd, ?_, ?_, ?_⟩
      · exact fun x hx => hsch (subset_insertName _ _ hx)
      · exact fun x hx => hnm (subset_insertName _ _ hx)
      · intro x hx
        rcases List.mem_cons.1 hx with hx | hx
        · subst hx
          exact ⟨hsch ((mem_insertName _ _ _).2 (Or.inr rfl)),
                 hnm ((mem_insertName _ _ _).2 (Or.inr rfl))⟩
        · exact hancs x hx
    · obtain ⟨s', hs', hp, he, hd, hsch, hnm, hancs⟩ := ih (ancStep self st a) _ hstep
      refine ⟨s', hs', hp, he, hd, ?_, ?_, ?_⟩
      · exact fun x hx => hsch (subset_insertName _ _ hx)
      · exact fun x hx => hnm (subset_insertName _ _ hx)
      · intro x hx
        rcases List.mem_cons.1 hx with hx | hx
        · subst hx
          exact ⟨hsch ((mem_insertName _ _ _).2 (Or.inr rfl)),
                 hnm ((mem_insertName _ _ _).2 (Or.inr rfl))⟩
        · exact hancs x hx

/-- After one ancestor step, the resolving schema is in the descendants of
the processed ancestor whenever the latter is present. -/
theorem ancStep_descendant (self : String) (st : ModelState) (anc : String)
    (aS : SchemaState) (h : (ancStep self st anc) anc = some aS) :
    self ∈ aS.descendants := by
  cases hs : st self with
  | none =>
    cases ha0 : st anc with
    | none =>
      simp only [ancStep, hs, ha0] at h
      exact absurd h (by simp)
    | some a0 =>
      simp only [ancStep, hs, ha0] at h
      rw [setSchema_same] at h
      injection h with h
      rw [← h]
      exact (mem_insertName _ _ _).2 (Or.inr rfl)
  | some s =>
    cases ha0 : (setSchema st self { s with schemata := insertName s.schemata anc, names := insertName s.names anc }) anc with
    | none =>
      simp only [ancStep, hs, ha0] at h
      exact absurd h (by simp)
    | some a0 =>
      simp only [ancStep, hs, ha0] at h
      rw [setSchema_same] at h
      injection h with h
      rw [← h]
      exact (mem_insertName _ _ _).2 (Or.inr rfl)

/-- After the ancestor loop, the resolving schema is a descendant of every
processed ancestor present in the registry. -/
theorem ancFold_descendants (self : String) :
    ∀ (ancs : List String) (st : ModelState) (a : String), a ∈ ancs →
      ∀ ancS, ((ancs.foldl (ancStep self) st) a) = some ancS →
        self ∈ ancS.descendants := by
  intro ancs
  induction ancs with
  | nil => intro st a ha; exact absurd ha (by simp)
  | cons b ancs ih =>
    intro st a ha ancS hfin
    rw [List.foldl_cons] at hfin
    rcases List.mem_cons.1 ha with hab | ha2
    · subst hab
      -- after `ancStep self st a`, either a is absent (and stays absent) or
      -- its descendants contain self (and only grow).
      cases hmid : (ancStep self st a) a with
      | none =>
        have : ((ancs.foldl (ancStep self) (ancStep self st a)) a) = none :=
          (foldl_evolves (ancStep_evolves self) ancs _).lookup_none hmid
        rw [hfin] at this
        exact absurd this (by simp)
      | some aS =>
        have hself : self ∈ aS.descendants := ancStep_descendant self st a aS hmid
        obtain ⟨ancS', hfin', hle⟩ :=
          (foldl_evolves (ancStep_evolves self) ancs _).lookup_some hmid
        rw [hfin] at hfin'
        injection hfin' with hfin'
        rw [hfin']
        exact hle.descendants_sub hself
    · exact ih (ancStep self st b) a ha2 ancS hfin

/-- A parent merge establishes the merge facts for that parent. -/
theorem mergeParent_establishes (st : ModelState) (S pn : String)
    (sch par : SchemaState) (hS : st S = some sch) (hpn : st pn = some par)
    (hSpn : pn ≠ S) :
    MergeFacts (mergeParent st S pn) S pn := by
  have hst1S : (setSchema st S { sch with properties := mergeProps par.properties sch.properties, exts := insertName sch.exts pn }) S = some { sch with properties := mergeProps par.properties sch.properties, exts := insertName sch.exts pn } :=
    setSchema_same _ _ _
  have hst1pn : (setSchema st S { sch with properties := mergeProps par.properties sch.properties, exts := insertName sch.exts pn }) pn = some par := by
    rw [setSchema_other _ _ _ _ hSpn]
    exact hpn
  obtain ⟨s', hs', hp, he, hd, hsch, hnm, hancs⟩ :=
    ancFold_self S par.schemata _ _ hst1S
  obtain ⟨par', hpar', hparLE⟩ :=
    ancFold_desc_other S par.schemata pn hSpn _ par hst1pn
  have hmp : mergeParent st S pn = par.schemata.foldl (ancStep S)
      (setSchema st S { sch with properties := mergeProps par.properties sch.properties, exts := insertName sch.exts pn }) := by
    simp only [mergeParent, hpn, hS]
  refine ⟨s', par', ?_, ?_, ?_, ?_, ?_⟩
  · rw [hmp]; exact hs'
  · rw [hmp]; exact hpar'
  · rw [he]
    exact (mem_insertName _ _ _).2 (Or.inr rfl)
  · intro np hnp
    rw [hparLE.props_eq] at hnp
    rw [hp]
    exact mergeProps_has par.properties sch.properties np hnp
  · intro anc hanc
    rw [hparLE.schemata_eq] at hanc
    refine ⟨(hancs anc hanc).1, (hancs anc hanc).2, ?_⟩
    intro ancS hancS
    rw [hmp] at hancS
    exact ancFold_descendants S par.schemata _ anc hanc ancS hancS

/-- Resolving a `Done` schema changes nothing (no-reverse fragment): every
parent lookup, recursive resolution, merge, property finalization and check
retraces already-recorded facts. -/
theorem done_generate_eq : ∀ f : Nat,
    (∀ st S st', NoRevProps st → Done st S → generate f st S = .ok st' → st' = st) ∧
    (∀ st S l st', NoRevProps st →
      (∀ pn ∈ l, Done st pn ∧ MergeFacts st S pn) →
      genParents f st S l = .ok st' → st' = st) := by
  intro f
  induction f with
  | zero =>
    constructor
    · intro st S st' _ _ hgen; exact absurd hgen (by simp [generate])
    · intro st S l st' _ _ hgen; exact absurd hgen (by simp [genParents])
  | succ f ih =>
    obtain ⟨ihg, ihp⟩ := ih
    constructor
    · intro st S st' hNR hD hgen
      obtain ⟨sch, hS, hpar, hmf, hchk⟩ := hD.dest
      simp only [generate, hS] at hgen
      split at hgen
      · exact absurd hgen (by simp)
      · rename_i st1 h1
        have hst1 : st1 = st :=
          ihp st S sch.data.exts st1 hNR (fun pn hpn => ⟨hpar pn hpn, hmf pn hpn⟩) h1
        rw [hst1, hS] at hgen
        split at hgen
        · rename_i heq
          exact absurd heq (by simp)
        · rename_i sch1 heq
          injection heq with heq
          subst heq
          split at hgen
          · exact absurd hgen (by simp)
          · rename_i st2 h2
            have hsnap : ∀ p ∈ sch.properties.map (fun np => np.2),
                p.data.reverse = none := by
              intro p hp
              obtain ⟨np, hnp, hfe⟩ := List.mem_map.1 hp
              rw [← hfe]
              exact hNR S sch hS np hnp
            rcases (genProps_NR f (sch.properties.map (fun np => np.2)) st hsnap).1
              with hok | herr
            · rw [h2] at hok
              injection hok with hok
              rw [checks_eq st2 S st' hgen, hok]
            · rw [h2] at herr
              exact absurd herr (by simp)
    · intro st S l st' hNR hl hgen
      cases l with
      | nil =>
        simp only [genParents] at hgen
        injection hgen with hgen
        exact hgen.symm
      | cons pn rest =>
        simp only [genParents] at hgen
        split at hgen
        · exact absurd hgen (by simp)
        · split at hgen
          · exact absurd hgen (by simp)
          · rename_i st1 h1
            obtain ⟨hDpn, hMF⟩ := hl pn (by simp)
            have hst1 : st1 = st := ihg st pn st1 hNR hDpn h1
            rw [hst1, mergeParent_id st S pn hMF] at hgen
            exact ihp st S rest st' hNR (fun q hq => hl q (by simp [hq])) hgen

/-- Presence of a property key, phrased through `Schema.get`. -/
theorem anyKey_iff_get (sch : SchemaState) (n : String) :
    sch.properties.any (fun q => q.1 == n) = true ↔ ∃ p, sch.get n = some p := by
  rw [get_eq_findProp]
  constructor
  · intro h
    obtain ⟨x, hx, hkey⟩ := List.any_eq_true.1 h
    have hs : (sch.properties.find? (fun np => np.1 == n)).isSome = true :=
      List.find?_isSome.2 ⟨x, hx, hkey⟩
    obtain ⟨pr, hpr⟩ := Option.isSome_iff_exists.1 hs
    exact ⟨pr.2, by rw [hpr]; rfl⟩
  · intro h
    obtain ⟨p, hp⟩ := h
    obtain ⟨pr, hf, _⟩ := Option.map_eq_some'.1 hp
    refine List.any_eq_true.2 ⟨pr, List.mem_of_find?_eq_some hf, ?_⟩
    have := List.find?_some hf
    simpa using this

/-- Monotone schema growth preserves presence of a property key. -/
theorem SchemaLE.anyKey {a b : SchemaState} (h : SchemaLE a b) (n : String)
    (ha : a.properties.any (fun q => q.1 == n) = true) :
    b.properties.any (fun q => q.1 == n) = true := by
  obtain ⟨p, hp⟩ := (anyKey_iff_get a n).1 ha
  exact (anyKey_iff_get b n).2 ⟨p, h.props_le n p hp⟩

/-- Recorded merge facts survive monotone evolution, as long as the parent
only grew its `descendants`. -/
theorem MergeFacts_transfer {st st' : ModelState} {S pn : String}
    (hMF : MergeFacts st S pn) (hev : Evolves st st')
    (hdesc : entryDesc st st' pn) : MergeFacts st' S pn := by
  obtain ⟨sch, par, hS, hpn, hexts, hprops, hanc⟩ := hMF
  obtain ⟨sch', hS', hschLE⟩ := hev.lookup_some hS
  obtain ⟨par', hpn', hparLE⟩ := hdesc par hpn
  refine ⟨sch', par', hS', hpn', hschLE.exts_sub hexts, ?_, ?_⟩
  · intro np hnp
    rw [hparLE.props_eq] at hnp
    exact hschLE.anyKey np.1 (hprops np hnp)
  · intro anc hanc'
    rw [hparLE.schemata_eq] at hanc'
    obtain ⟨h1, h2, h3⟩ := hanc anc hanc'
    refine ⟨hschLE.schemata_sub h1, hschLE.names_sub h2, ?_⟩
    intro ancS' hancS'
    obtain ⟨ancS, hancS, hancLE⟩ := hev.lookup_some_rev hancS'
    exact hancLE.descendants_sub (h3 ancS hancS)

/-- A `Done` schema stays `Done` across a monotone evolution that only grows
the `descendants` of `Done` schemas. -/
theorem Done_transfer {st st' : ModelState} {T : String} (hD : Done st T)
    (hev : Evolves st st')
    (hdesc : ∀ U, Done st U → entryDesc st st' U) : Done st' T := by
  induction hD with
  | mk S sch hS hpar hmf hchk ih =>
    obtain ⟨sch', hS', hLE⟩ := hdesc S (Done.mk S sch hS hpar hmf hchk) sch hS
    refine Done.mk S sch' hS' ?_ ?_ (hLE.checksPass_iff.mpr hchk)
    · intro pn hpn
      rw [hLE.data_eq] at hpn
      exact ih pn hpn
    · intro pn hpn
      rw [hLE.data_eq] at hpn
      exact MergeFacts_transfer (hmf pn hpn) hev (hdesc pn (hpar pn hpn))

/-- A successful resolution leaves the schema `Done` (no-reverse fragment),
records full merge facts for every processed parent, and changes
already-`Done` schemas' entries only by growing their `descendants`. -/
theorem generate_establishes : ∀ f : Nat,
    (∀ st S st', NoRevProps st → generate f st S = .ok st' →
      Done st' S ∧ (∀ T, Done st T → entryDesc st st' T)) ∧
    (∀ st S schS l st', NoRevProps st → st S = some schS →
      (∀ pn ∈ l, pn ∈ schS.data.exts) → genParents f st S l = .ok st' →
      (∀ pn ∈ l, Done st' pn ∧ MergeFacts st' S pn) ∧
      (∀ T, Done st T → entryDesc st st' T)) := by
  intro f
  induction f with
  | zero =>
    constructor
    · intro st S st' _ hg; exact absurd hg (by simp [generate])
    · intro st S schS l st' _ _ _ hg; exact absurd hg (by simp [genParents])
  | succ f ih =>
    obtain ⟨ihg, ihp⟩ := ih
    constructor
    · intro st S st' hNR hg
      simp only [generate] at hg
      split at hg
      · exact absurd hg (by simp)
      · rename_i sch hS
        split at hg
        · exact absurd hg (by simp)
        · rename_i st1 h1
          split at hg
          · exact absurd hg (by simp)
          · rename_i sch1 hS1
            split at hg
            · exact absurd hg (by simp)
            · rename_i st2 h2
              have hNR1 : NoRevProps st1 := (NR_ops f).2 st S sch.data.exts st1 hNR h1
              have hsnap : ∀ p ∈ sch1.properties.map (fun np => np.2),
                  p.data.reverse = none := by
                intro p hp
                obtain ⟨np, hnp, hfe⟩ := List.mem_map.1 hp
                rw [← hfe]
                exact hNR1 S sch1 hS1 np hnp
              rcases (genProps_NR f (sch1.properties.map (fun np => np.2)) st1 hsnap).1
                with hok | herr
              · rw [h2] at hok
                injection hok with hok
                have hst' : st' = st1 := by rw [checks_eq st2 S st' hg, hok]
                obtain ⟨hfacts, hpres⟩ :=
                  ihp st S sch sch.data.exts st1 hNR hS (fun _ h => h) h1
                subst hst'
                refine ⟨?_, hpres⟩
                have hdata : sch1.data = sch.data := by
                  obtain ⟨sch1x, hS1x, hLEx⟩ :=
                    ((ops_evolve f).2.1 st S sch.data.exts st' h1).lookup_some hS
                  rw [hS1] at hS1x
                  injection hS1x with hS1x
                  rw [hS1x]
                  exact hLEx.data_eq
                refine Done.mk S sch1 hS1 ?_ ?_ ?_
                · intro pn hpn
                  rw [hdata] at hpn
                  exact (hfacts pn hpn).1
                · intro pn hpn
                  rw [hdata] at hpn
                  exact (hfacts pn hpn).2
                · exact checks_ok_pass st2 S sch1 st' (by rw [hok]; exact hS1) hg
              · rw [h2] at herr
                exact absurd herr (by simp)
    · intro st S schS l st' hNR hS hl hg
      cases l with
      | nil =>
        simp only [genParents] at hg
        injection hg with hg
        subst hg
        exact ⟨by simp, fun T _ => entryDesc_refl st T⟩
      | cons pn rest =>
        simp only [genParents] at hg
        split at hg
        · exact absurd hg (by simp)
        · split at hg
          · exact absurd hg (by simp)
          · rename_i stg h1
            obtain ⟨hDpn1, hpres1⟩ := ihg st pn stg hNR h1
            have hNRg : NoRevProps stg := (NR_ops f).1 st pn stg hNR h1
            have hevg : Evolves st stg := (ops_evolve f).1 st pn stg h1
            obtain ⟨schSg, hSg, hSleg⟩ := hevg.lookup_some hS
            have hpnS : pn ≠ S := by
              intro hc
              refine (no_cycle f).1 st pn stg ?_ h1
              exact Reaches.edge pn pn schS (by rw [hc]; exact hS) (hl pn (by simp))
            obtain ⟨hDpn2, hpres2, hMF2⟩ :
                Done (mergeParent stg S pn) pn ∧
                (∀ T, Done stg T → entryDesc stg (mergeParent stg S pn) T) ∧
                MergeFacts (mergeParent stg S pn) S pn := by
              by_cases hDS : Done stg S
              · obtain ⟨schSx, hSx, hparx, hmfx, hchkx⟩ := hDS.dest
                rw [hSg] at hSx
                injection hSx with hSx
                have hMF1 : MergeFacts stg S pn := by
                  apply hmfx
                  rw [← hSx, hSleg.data_eq]
                  exact hl pn (by simp)
                rw [mergeParent_id stg S pn hMF1]
                exact ⟨hDpn1, fun T _ => entryDesc_refl stg T, hMF1⟩
              · have hpres2 : ∀ T, Done stg T →
                    entryDesc stg (mergeParent stg S pn) T := by
                  intro T hT
                  have hTS : T ≠ S := by
                    intro hc
                    exact hDS (hc ▸ hT)
                  exact mergeParent_desc_other stg S pn T hTS
                obtain ⟨parg, hpng, hp2, hp3, hp4⟩ := hDpn1.dest
                exact ⟨Done_transfer hDpn1 (mergeParent_evolves stg S pn) hpres2, hpres2,
                       mergeParent_establishes stg S pn schSg parg hSg hpng hpnS⟩
            have hNR2 : NoRevProps (mergeParent stg S pn) := mergeParent_NR stg S pn hNRg
            have hev2 : Evolves stg (mergeParent stg S pn) := mergeParent_evolves stg S pn
            obtain ⟨schS2, hS2, hSle2⟩ := (hevg.ev_trans hev2).lookup_some hS
            have hl2 : ∀ q ∈ rest, q ∈ schS2.data.exts := by
              intro q hq
              rw [hSle2.data_eq]
              exact hl q (by simp [hq])
            obtain ⟨hfacts3, hpres3⟩ :=
              ihp (mergeParent stg S pn) S schS2 rest st' hNR2 hS2 hl2 hg
            have hev3 : Evolves (mergeParent stg S pn) st' :=
              (ops_evolve f).2.1 (mergeParent stg S pn) S rest st' hg
            constructor
            · intro q hq
              rcases List.mem_cons.1 hq with hc | hc
              · subst hc
                refine ⟨Done_transfer hDpn2 hev3 hpres3, ?_⟩
                exact MergeFacts_transfer hMF2 hev3 (hpres3 q hDpn2)
              · exact hfacts3 q hc
            · intro T hT
              have hTg : Done stg T := Done_transfer hT hevg hpres1
              have hT2 : Done (mergeParent stg S pn) T := Done_transfer hTg hev2 hpres2
              exact entryDesc_trans (hpres1 T hT)
                (entryDesc_trans (hpres2 T hTg) (hpres3 T hT2))

/-- A successful resolution (no-reverse fragment) re-runs successfully, as
a no-op, on any later state that keeps its `Done` schemas `Done` and only
grows their `descendants`. -/
theorem generate_transfer : ∀ f : Nat,
    (∀ st S st1, NoRevProps st → generate f st S = .ok st1 →
      ∀ st', NoRevProps st' → Evolves st1 st' →
        (∀ T, Done st1 T → Done st' T ∧ entryDesc st1 st' T) →
        generate f st' S = .ok st') ∧
    (∀ st S schS l st1, NoRevProps st → st S = some schS →
      (∀ pn ∈ l, pn ∈ schS.data.exts) → genParents f st S l = .ok st1 →
      ∀ st', NoRevProps st' → Evolves st1 st' →
        (∀ T, Done st1 T → Done st' T ∧ entryDesc st1 st' T) →
        (∀ pn ∈ l, MergeFacts st' S pn) →
        genParents f st' S l = .ok st') := by
  intro f
  induction f with
  | zero =>
    constructor
    · intro st S st1 _ hg; exact absurd hg (by simp [generate])
    · intro st S schS l st1 _ _ _ hg; exact absurd hg (by simp [genParents])
  | succ f ih =>
    obtain ⟨ihg, ihp⟩ := ih
    constructor
    · intro st S st1 hNR hg0 st' hNR' hev' htrans
      have hg := hg0
      simp only [generate] at hg
      split at hg
      · exact absurd hg (by simp)
      · rename_i sch hS
        split at hg
        · exact absurd hg (by simp)
        · rename_i stp h1
          split at hg
          · exact absurd hg (by simp)
          · rename_i schp hSp
            split at hg
            · exact absurd hg (by simp)
            · rename_i stq h2
              have hNRp : NoRevProps stp := (NR_ops f).2 st S sch.data.exts stp hNR h1
              have hsnap : ∀ p ∈ schp.properties.map (fun np => np.2),
                  p.data.reverse = none := by
                intro p hp
                obtain ⟨np, hnp, hfe⟩ := List.mem_map.1 hp
                rw [← hfe]
                exact hNRp S schp hSp np hnp
              rcases (genProps_NR f (schp.properties.map (fun np => np.2)) stp hsnap).1
                with hok | herr
              · rw [h2] at hok
                injection hok with hok
                have hst1 : st1 = stp := by rw [checks_eq stq S st1 hg, hok]
                have hlen : (schp.properties.map (fun np => np.2)).length < f :=
                  ((genProps_NR f (schp.properties.map (fun np => np.2)) stp hsnap).2).1
                    (by rw [h2, hok])
                subst hst1
                obtain ⟨hfacts, _⟩ :=
                  (generate_establishes f).2 st S sch sch.data.exts st1 hNR hS
                    (fun _ h => h) h1
                have hDS : Done st1 S :=
                  ((generate_establishes (f+1)).1 st S st1 hNR hg0).1
                obtain ⟨sch', hS', hpLE⟩ := (htrans S hDS).2 schp hSp
                have hdata : sch'.data = sch.data := by
                  obtain ⟨schpx, hSpx, hLEx⟩ :=
                    ((ops_evolve f).2.1 st S sch.data.exts st1 h1).lookup_some hS
                  rw [hSp] at hSpx
                  injection hSpx with hSpx
                  rw [hpLE.data_eq, hSpx]
                  exact hLEx.data_eq
                have hMFs' : ∀ pn ∈ sch.data.exts, MergeFacts st' S pn := by
                  intro pn hpn
                  exact MergeFacts_transfer (hfacts pn hpn).2 hev'
                    ((htrans pn (hfacts pn hpn).1).2)
                have hgp' : genParents f st' S sch.data.exts = .ok st' :=
                  ihp st S sch sch.data.exts st1 hNR hS (fun _ h => h) h1 st'
                    hNR' hev' htrans hMFs'
                have hsnap' : ∀ p ∈ sch'.properties.map (fun np => np.2),
                    p.data.reverse = none := by
                  intro p hp
                  obtain ⟨np, hnp, hfe⟩ := List.mem_map.1 hp
                  rw [← hfe]
                  exact hNR' S sch' hS' np hnp
                have hlen' : (sch'.properties.map (fun np => np.2)).length < f := by
                  rw [List.length_map] at hlen ⊢
                  rw [hpLE.props_eq]
                  exact hlen
                have hgpr' : genProps f st' (sch'.properties.map (fun np => np.2)) =
                    .ok st' :=
                  ((genProps_NR f (sch'.properties.map (fun np => np.2)) st' hsnap').2).2
                    hlen'
                have hchkp : checksPass schp :=
                  checks_ok_pass stq S schp st1 (by rw [hok]; exact hSp) hg
                have hchk' : checks st' S = .ok st' :=
                  checksPass_checks st' S sch' hS' (hpLE.checksPass_iff.mpr hchkp)
                simp only [generate, hS', hdata, hgp', hgpr', hchk']
              · rw [h2] at herr
                exact absurd herr (by simp)
    · intro st S schS l st1 hNR hS hl hg st' hNR' hev' htrans hMFs
      cases l with
      | nil => simp [genParents]
      | cons pn rest =>
        simp only [genParents] at hg
        split at hg
        · exact absurd hg (by simp)
        · split at hg
          · exact absurd hg (by simp)
          · rename_i stg h1
            obtain ⟨hDpn1, hpres1⟩ := (generate_establishes f).1 st pn stg hNR h1
            have hNRg : NoRevProps stg := (NR_ops f).1 st pn stg hNR h1
            have hevg : Evolves st stg := (ops_evolve f).1 st pn stg h1
            obtain ⟨schSg, hSg, hSleg⟩ := hevg.lookup_some hS
            have hpnS : pn ≠ S := by
              intro hc
              refine (no_cycle f).1 st pn stg ?_ h1
              exact Reaches.edge pn pn schS (by rw [hc]; exact hS) (hl pn (by simp))
            obtain ⟨hDpn2, hpres2, hMF2⟩ :
                Done (mergeParent stg S pn) pn ∧
                (∀ T, Done stg T → entryDesc stg (mergeParent stg S pn) T) ∧
                MergeFacts (mergeParent stg S pn) S pn := by
              by_cases hDS : Done stg S
              · obtain ⟨schSx, hSx, hparx, hmfx, hchkx⟩ := hDS.dest
                rw [hSg] at hSx
                injection hSx with hSx
                have hMF1 : MergeFacts stg S pn := by
                  apply hmfx
                  rw [← hSx, hSleg.data_eq]
                  exact hl pn (by simp)
                rw [mergeParent_id stg S pn hMF1]
                exact ⟨hDpn1, fun T _ => entryDesc_refl stg T, hMF1⟩
              · have hpres2 : ∀ T, Done stg T →
                    entryDesc stg (mergeParent stg S pn) T := by
                  intro T hT
                  have hTS : T ≠ S := by
                    intro hc
                    exact hDS (hc ▸ hT)
                  exact mergeParent_desc_other stg S pn T hTS
                obtain ⟨parg, hpng, hp2, hp3, hp4⟩ := hDpn1.dest
                exact ⟨Done_transfer hDpn1 (mergeParent_evolves stg S pn) hpres2, hpres2,
                       mergeParent_establishes stg S pn schSg parg hSg hpng hpnS⟩
            have hNR2 : NoRevProps (mergeParent stg S pn) := mergeParent_NR stg S pn hNRg
            have hev2 : Evolves stg (mergeParent stg S pn) := mergeParent_evolves stg S pn
            obtain ⟨schS2, hS2, hSle2⟩ := (hevg.ev_trans hev2).lookup_some hS
            have hl2 : ∀ q ∈ rest, q ∈ schS2.data.exts := by
              intro q hq
              rw [hSle2.data_eq]
              exact hl q (by simp [hq])
            obtain ⟨hfacts3, hpres3⟩ :=
              (generate_establishes f).2 (mergeParent stg S pn) S schS2 rest st1
                hNR2 hS2 hl2 hg
            have hev3 : Evolves (mergeParent stg S pn) st1 :=
              (ops_evolve f).2.1 (mergeParent stg S pn) S rest st1 hg
            have htransg : ∀ T, Done stg T → Done st' T ∧ entryDesc stg st' T := by
              intro T hT
              have hT2 : Done (mergeParent stg S pn) T := Done_transfer hT hev2 hpres2
              have hT3 : Done st1 T := Done_transfer hT2 hev3 hpres3
              refine ⟨(htrans T hT3).1, ?_⟩
              exact entryDesc_trans (hpres2 T hT)
                (entryDesc_trans (hpres3 T hT2) (htrans T hT3).2)
            have hevg' : Evolves stg st' := hev2.ev_trans (hev3.ev_trans hev')
            have hgen' : generate f st' pn = .ok st' :=
              ihg st pn stg hNR h1 st' hNR' hevg' htransg
            obtain ⟨schX', parX', hSX', hpnX', hx3, hx4, hx5⟩ := hMFs pn (by simp)
            have hrest' : genParents f st' S rest = .ok st' :=
              ihp (mergeParent stg S pn) S schS2 rest st1 hNR2 hS2 hl2 hg st'
                hNR' hev' htrans (fun q hq => hMFs q (by simp [hq]))
            have hid' : mergeParent st' S pn = st' :=
              mergeParent_id st' S pn (hMFs pn (by simp))
            simp only [genParents, hpnX', hgen', hid', hrest']

/-- C2 (amended): in the reverse-synthesis-free fragment — no property in
the registry carries reverse-link metadata — `generate` is idempotent: a
second invocation on the state produced by a completed first invocation
succeeds and returns that state unchanged, so `properties`, `schemata`,
`names` and `descendants` of every schema (diamonds included) are identical
after the second run.  (In general the claim fails: see the
counterexample, where a reverse stub synthesized onto an ancestor after
the ancestor was merged makes the second run differ.) -/
theorem c2_idempotent_noreverse (f : Nat) (st st' : ModelState) (S : String)
    (hNR : NoRevProps st) (h : generate f st S = .ok st') :
    generate f st' S = .ok st' :=
  (generate_transfer f).1 st S st' hNR h st'
    ((NR_ops f).1 st S st' hNR h) (Evolves.ev_refl st')
    (fun T hT => ⟨hT, entryDesc_refl st' T⟩)

/-- Raw configuration of schema `A` in the C2 witness diamond. -/
def c2wA : SchemaData := { emptySchemaData with properties := [("p", emptyPropData)] }

/-- Raw configuration of schema `B` in the C2 witness diamond. -/
def c2wB : SchemaData := { emptySchemaData with exts := ["A"] }

/-- Raw configuration of schema `C` in the C2 witness diamond. -/
def c2wC : SchemaData := { emptySchemaData with exts := ["A"] }

/-- Raw configuration of schema `X` in the C2 witness diamond. -/
def c2wX : SchemaData := { emptySchemaData with exts := ["B", "C"] }

/-- The C2 witness registry: a diamond reaching `A` through both `B` and
`C`, with no reverse metadata anywhere. -/
def c2wSt : ModelState :=
  mkState [("A", c2wA), ("B", c2wB), ("C", c2wC), ("X", c2wX)]

/-- The state after the first resolution of `X` in the C2 witness. -/
def c2wSt' : ModelState :=
  match generate 10 c2wSt "X" with
  | .ok s => s
  | .error _ => c2wSt

/-- Witness for C2 (amended) on the concrete diamond `c2wSt`. -/
theorem c2_idempotent_noreverse_witness :
    NoRevProps c2wSt ∧ generate 10 c2wSt "X" = .ok c2wSt' ∧
    generate 10 c2wSt' "X" = .ok c2wSt' :=
  ⟨NoRevProps_mkState [("A", c2wA), ("B", c2wB), ("C", c2wC), ("X", c2wX)] (by decide),
   rfl,
   c2_idempotent_noreverse 10 c2wSt c2wSt' "X"
     (NoRevProps_mkState [("A", c2wA), ("B", c2wB), ("C", c2wC), ("X", c2wX)] (by decide))
     rfl⟩

/-- Concrete model for the C9 witness. -/
def c9St : ModelState := mkState [("M", emptySchemaData)]

/-! ### Validation (`Schema.validate`) -/

theorem foldl_validate_errors (f : String × Property → List (String × String)) :
    ∀ (l : List (String × Property)) (acc : List (String × String)),
      l.foldl (fun errs np => errs ++ f np) acc = acc ++ (l.map f).flatten := by
  intro l
  induction l with
  | nil => intro acc; simp
  | cons hd tl ih => intro acc; simp [ih, List.append_assoc]

theorem get_find?_eq (sch : SchemaState) (n : String) (prop : Property)
    (h : sch.get n = some prop) :
    sch.properties.find? (fun q => q.1 == n) = some (n, prop) := by
  rw [get_eq_findProp] at h
  obtain ⟨pr, hf, h2⟩ := Option.map_eq_some'.1 h
  have hk : pr.1 = n := by
    have := List.find?_some hf
    simpa using this
  cases pr with
  | mk k v =>
    simp only at hk h2
    subst hk
    subst h2
    exact hf

/-- A property whose key differs from `m` contributes no error entry keyed
`m`. -/
theorem validateEntry_keys (kv : Property → List String → Option String)
    (props : List (String × List String)) (req : List String)
    (np : String × Property) (m : String) (h : np.1 ≠ m) :
    (validateEntry kv props req np).find? (fun q => q.1 == m) = none := by
  have hb : (np.1 == m) = false := by simp [h]
  simp only [validateEntry]
  split
  · simp [List.find?, hb]
  · simp [List.find?]

theorem find?_join_map_none (kv : Property → List String → Option String)
    (props : List (String × List String)) (req : List String) (m : String) :
    ∀ (l : List (String × Property)), (∀ np ∈ l, np.1 ≠ m) →
      ((l.map (validateEntry kv props req)).flatten.find? (fun q => q.1 == m)) = none := by
  intro l
  induction l with
  | nil => intro _; simp [List.find?]
  | cons hd tl ih =>
    intro h
    simp only [List.map_cons, List.flatten_cons, List.find?_append]
    rw [validateEntry_keys kv props req hd m (h hd (by simp))]
    rw [ih (fun np hnp => h np (by simp [hnp]))]
    rfl

/-- On a required property with empty values and no kind-level error, the
loop contribution is the "Required" entry. -/
theorem validateEntry_required (kv : Property → List String → Option String)
    (req : List String) (n : String) (prop : Property)
    (hr : prop.name ∈ req) (hkv : kv prop [] = none) :
    validateEntry kv [] req (n, prop) = [(n, gettext "Required")] := by
  simp [validateEntry, hkv, hr, List.find?]

/-- C5 (amended): on instance data with no `properties` sub-mapping,
`validate` fails with a data-validation error whose payload maps every
required property with empty values and no kind-level error to "Required";
in particular it maps the given required property name to "Required" (the
payload equals exactly that singleton only when no other property
contributes an error). -/
theorem c5_validate_required (kv : Property → List String → Option String)
    (sch : SchemaState) (n : String) (prop : Property)
    (hg : sch.get n = some prop) (hr : prop.name ∈ sch.required)
    (hkv : kv prop [] = none) :
    ∃ errs : ValidationErrors,
      validate kv sch ⟨[]⟩ = .error (.invalidData (gettext "Entity validation failed") errs) ∧
      errs.properties.find? (fun q => q.1 == n) = some (n, gettext "Required") := by
  have hfind := get_find?_eq sch n prop hg
  obtain ⟨hp, as, bs, hsplit, has⟩ := List.find?_eq_some.1 hfind
  have errs_eq : sch.properties.foldl
      (fun errs np => errs ++ validateEntry kv ([] : List (String × List String)) sch.required np) [] =
      (sch.properties.map (validateEntry kv [] sch.required)).flatten :=
    foldl_validate_errors _ sch.properties []
  have hkeys : ∀ np ∈ as, np.1 ≠ n := by
    intro np hnp
    have := has np hnp
    simpa using this
  have hjoin : (sch.properties.map (validateEntry kv [] sch.required)).flatten =
      (as.map (validateEntry kv [] sch.required)).flatten ++
      (validateEntry kv [] sch.required (n, prop) ++
        (bs.map (validateEntry kv [] sch.required)).flatten) := by
    rw [hsplit]
    simp [List.map_append, List.flatten_append, List.flatten_cons]
  have hpre := find?_join_map_none kv [] sch.required n as hkeys
  have hent := validateEntry_required kv sch.required n prop hr hkv
  refine ⟨⟨(sch.properties.map (validateEntry kv [] sch.required)).flatten⟩, ?_, ?_⟩
  · simp only [validate]
    rw [errs_eq]
    have hne : (sch.properties.map (validateEntry kv [] sch.required)).flatten.isEmpty = false := by
      rw [hjoin, hent]
      cases hcase : (as.map (validateEntry kv [] sch.required)).flatten with
      | nil => simp
      | cons hd tl => simp
    rw [hne]
    rfl
  · rw [hjoin, List.find?_append, hpre, hent, List.find?_append]
    simp [List.find?]

/-- Concrete model for the C5 counterexample and witness: a schema with two
required properties `a` and `b`, and one with a single required property. -/
def c5Sch : SchemaState :=
  schemaInit "V" { emptySchemaData with
    properties := [("a", emptyPropData), ("b", emptyPropData)],
    required := ["a", "b"] }

/-- A kind-level validation that never reports an error (the claim's
hypothesis instantiated trivially). -/
def c5kv : Property → List String → Option String := fun _ _ => none

/-- C5 counterexample: on a schema with two required properties, the
property `a` is named in `required` and kind-level validation reports no
error on the empty list, yet the structured payload of `validate({})` is
not `{"properties": {"a": "Required"}}` — it also carries the entry for
`b`. -/
theorem c5_counterexample :
    validate c5kv c5Sch ⟨[]⟩ =
      .error (.invalidData (gettext "Entity validation failed")
        ⟨[("a", gettext "Required"), ("b", gettext "Required")]⟩) ∧
    validate c5kv c5Sch ⟨[]⟩ ≠
      .error (.invalidData (gettext "Entity validation failed")
        ⟨[("a", gettext "Required")]⟩) := by
  constructor
  · rfl
  · intro h
    have h1 : validate c5kv c5Sch ⟨[]⟩ =
        .error (.invalidData (gettext "Entity validation failed")
          ⟨[("a", gettext "Required"), ("b", gettext "Required")]⟩) := rfl
    rw [h1] at h
    simp only [Except.error.injEq, Err.invalidData.injEq, ValidationErrors.mk.injEq] at h
    exact absurd h.2 (by decide)

/-- Concrete single-required schema for the C5 witness. -/
def c5Sch1 : SchemaState :=
  schemaInit "W" { emptySchemaData with
    properties := [("name", emptyPropData)], required := ["name"] }

/-- Witness for C5 (amended) at the concrete schema `c5Sch1`. -/
theorem c5_validate_required_witness :
    ∃ errs : ValidationErrors,
      validate c5kv c5Sch1 ⟨[]⟩ =
        .error (.invalidData (gettext "Entity validation failed") errs) ∧
      errs.properties.find? (fun q => q.1 == "name") = some ("name", gettext "Required") :=
  c5_validate_required c5kv c5Sch1 "name" ⟨"W", "name", emptyPropData⟩
    (by decide) (by decide) (by rfl)

/-- Witness for C9 on the concrete model `c9St`. -/
theorem c9_matchable_default_witness :
    (schemaInit "M" emptySchemaData).matchable = true ∧
    (schemaInit "M" emptySchemaData).abstract = false ∧
    (schemaInit "M" emptySchemaData).generated = false ∧
    (to_dict (schemaInit "M" emptySchemaData)).matchable = some true ∧
    "M" ∈ matchable_schemata c9St (schemaInit "M" emptySchemaData) := by
  have h := c9_matchable_default "M" emptySchemaData c9St (by rfl)
  exact ⟨h.1, h.2.1 (by rfl), h.2.2.1 (by rfl), h.2.2.2.1, h.2.2.2.2 (by rfl)⟩

end FTM
